import Mathlib

/-!
# Verification of `python_unittests.py` (vim-pyunit)

A shallow embedding of the path-mapping logic of `src/python_unittests.py`.
Python strings are modelled as `List Char` (`PStr`); the POSIX path helpers
from `os.path` that the plugin calls (`normpath`, `join`, `abspath`,
`relpath`, `splitext`, `dirname`) are modelled faithfully after CPython's
`posixpath` implementations.  The filesystem is modelled symlink-free: a
path exists iff its canonical absolute segment list is listed in the
environment, and `os.path.realpath` returns the canonical absolute form.
All configuration values read from vim variables are fields of `Config`;
process state (working directory, `$HOME`) and the filesystem are fields of
`Env`.  Exceptions raised by the Python code are modelled by `Except PyErr`.
-/

deriving instance DecidableEq for Except

namespace PyUnit

/-- A Python string, as a list of characters. -/
abbrev PStr := List Char

/-- Convenience injection of Lean string literals into `PStr`. -/
def pstr (s : String) : PStr := s.toList

/-- `os.sep` on POSIX. -/
def sep : Char := '/'

/-- `str.split(c)` for a one-character separator `c`: splits into the
(always nonempty) list of chunks between occurrences of `c`. -/
def splitOnChar (c : Char) : PStr → List PStr
  | [] => [[]]
  | x :: xs =>
    match splitOnChar c xs with
    | [] => [[]]
    | h :: t => if x = c then [] :: h :: t else (x :: h) :: t

/-- `s.join(parts)` for Python strings: interleaves `s` between the parts. -/
def pyJoin (s : PStr) : List PStr → PStr
  | [] => []
  | [x] => x
  | x :: y :: xs => x ++ s ++ pyJoin s (y :: xs)

/-- `"".join(parts)`: plain concatenation of all parts. -/
def joinAll : List PStr → PStr
  | [] => []
  | x :: xs => x ++ joinAll xs

/-- Python slice `s[:-n]`. -/
def dropRightN (l : PStr) (n : Nat) : PStr := l.take (l.length - n)

/-- Index of the last occurrence of `c` in `l` (Python `str.rfind`,
with `none` for "not found"). -/
def rfindIdx (c : Char) : PStr → Option Nat
  | [] => none
  | x :: xs =>
    match rfindIdx c xs with
    | some i => some (i + 1)
    | none => if x = c then some 0 else none

/-- `path.startswith('/')` — whether a POSIX path is absolute. -/
def isAbs (p : PStr) : Bool := [sep].isPrefixOf p

/-- `posixpath.join(a, b)` (two-argument form, the only one the plugin uses). -/
def pjoin (a b : PStr) : PStr :=
  if isAbs b then b
  else if a = [] ∨ a.getLast? = some sep then a ++ b
  else a ++ [sep] ++ b

/-- One step of the component-normalisation loop of `posixpath.normpath`:
drop empty and `.` components, resolve `..` lexically; `islash` tells
whether the path being normalised is absolute (leading `..` components are
dropped for absolute paths and kept for relative ones). -/
def ncStep (islash : Bool) (acc : List PStr) (comp : PStr) : List PStr :=
  if comp = [] ∨ comp = pstr "." then acc
  else if comp ≠ pstr ".." ∨ (islash = false ∧ acc = []) ∨
      (acc ≠ [] ∧ acc.getLast? = some (pstr "..")) then acc ++ [comp]
  else if acc ≠ [] then acc.dropLast
  else acc

/-- The component-normalisation loop of `posixpath.normpath`. -/
def normComps (islash : Bool) (comps : List PStr) : List PStr :=
  comps.foldl (ncStep islash) []

/-- `posixpath.normpath`, including the special treatment of exactly two
leading slashes. -/
def normpath (p : PStr) : PStr :=
  if p = [] then pstr "."
  else
    let islash := isAbs p
    let dslash := (pstr "//").isPrefixOf p ∧ ¬ (pstr "///").isPrefixOf p
    let comps := normComps islash (splitOnChar sep p)
    let joined := pyJoin [sep] comps
    let r := (if islash then (if dslash then pstr "//" else pstr "/") else []) ++ joined
    if r = [] then pstr "." else r

/-- The path that `posixpath.abspath` normalises: `p` itself when absolute,
else `join(cwd, p)` where `cwd` is the process working directory. -/
def absRaw (cwd p : PStr) : PStr := if isAbs p then p else pjoin cwd p

/-- `posixpath.abspath` relative to working directory `cwd`. -/
def abspath (cwd p : PStr) : PStr := normpath (absRaw cwd p)

/-- The canonical absolute segment list of a path: the component list that
normalising `absRaw cwd p` as an absolute path produces.  For an absolute
working directory this is exactly the nonempty components of
`abspath cwd p`. -/
def canonComps (cwd p : PStr) : List PStr := normComps true (splitOnChar sep (absRaw cwd p))

/-- Rebuild an absolute path string from canonical segments. -/
def mkAbs (l : List PStr) : PStr := sep :: pyJoin [sep] l

/-- `os.path.realpath`, modelled on a symlink-free filesystem: the
canonical absolute form of the path (POSIX double-slash roots are not
distinguished from `/`). -/
def realpath (cwd p : PStr) : PStr := mkAbs (canonComps cwd p)

/-- `posixpath.dirname`. -/
def dirname (p : PStr) : PStr :=
  let i : Nat := match rfindIdx sep p with | some k => k + 1 | none => 0
  let head := p.take i
  if head ≠ [] ∧ head ≠ List.replicate head.length sep then
    (head.reverse.dropWhile (fun ch => ch = sep)).reverse
  else head

/-- Length of the longest common prefix of two segment lists
(`os.path.commonprefix` applied to two split paths). -/
def commonPrefixLen : List PStr → List PStr → Nat
  | x :: xs, y :: ys => if x = y then commonPrefixLen xs ys + 1 else 0
  | _, _ => 0

/-- `genericpath._splitext` with POSIX separators: splits off the extension
at the last dot of the last component, unless that component consists only
of leading dots up to there. -/
def splitext (p : PStr) : PStr × PStr :=
  let sepIdx : Int := match rfindIdx sep p with | some k => (k : Int) | none => -1
  let dotIdx : Int := match rfindIdx '.' p with | some k => (k : Int) | none => -1
  if sepIdx < dotIdx then
    let nameStart := (sepIdx + 1).toNat
    let lead := (p.drop nameStart).take (dotIdx.toNat - nameStart)
    if lead.all (fun ch => ch = '.') then (p, [])
    else (p.take dotIdx.toNat, p.drop dotIdx.toNat)
  else (p, [])

/-- Errors raised by the plugin (each constructor models one `raise` site)
together with the runtime errors Python itself would raise:
`indexError` for an out-of-range `parts[-1]`, `valueError` for
`os.path.relpath("")`, and `recursionLimit` for the interpreter aborting
the unbounded recursion of `find_project_root` at `/`. -/
inductive PyErr where
  | indexError
  | valueError
  | notUnderSourceRoot
  | notUnderTestRoot
  | notATestFile
  | invalidTestPath
  | sourceFileNotFound
  | projectRootNotFound
  | recursionLimit
deriving DecidableEq

/-- The vim configuration variables the plugin reads
(`g:PyUnitSourceRoot`, `g:PyUnitTestsRoot`, `g:PyUnitTestPrefix`,
`g:ProjRootIndicators`, `g:ProjRootStopAtHomeDir`,
`g:PyUnitTestsStructure`). -/
structure Config where
  source_root : PStr
  test_root : PStr
  pfx : PStr
  indicators : List PStr
  stopAtHome : Bool
  tests_structure : PStr

/-- Process environment and (symlink-free) filesystem: the working
directory, `$HOME`, and the canonical absolute segment lists of the
existing regular files and directories. -/
structure Env where
  cwd : PStr
  home : PStr
  files : List (List PStr)
  dirs : List (List PStr)

/-- `os.path.isfile` on the modelled filesystem. -/
def isfile (env : Env) (p : PStr) : Bool := canonComps env.cwd p ∈ env.files

/-- `os.path.isdir` on the modelled filesystem. -/
def isdir (env : Env) (p : PStr) : Bool := canonComps env.cwd p ∈ env.dirs

/-- `os.path.exists` on the modelled filesystem. -/
def pexists (env : Env) (p : PStr) : Bool := isfile env p ∨ isdir env p

/-- `posixpath.relpath(path, start)` (the stdlib routine, raising
`ValueError` on an empty path). -/
def posix_relpath (cwd path start : PStr) : Except PyErr PStr :=
  if path = [] then .error .valueError
  else
    let start_list := (splitOnChar sep (abspath cwd start)).filter (fun x => x ≠ [])
    let path_list := (splitOnChar sep (abspath cwd path)).filter (fun x => x ≠ [])
    let i := commonPrefixLen start_list path_list
    let rel_list := List.replicate (start_list.length - i) (pstr "..") ++ path_list.drop i
    if rel_list = [] then .ok (pstr ".")
    else .ok (pyJoin [sep] rel_list)

/-- `_relpath(path, start)` from the source.  Every call site uses the
default `try_stdlib=True`, and on the Python ≥ 2.6 runtimes the plugin
supports, `os.path.relpath` exists, so the function delegates to the
stdlib routine; the hand-written fallback below it is dead code there. -/
def _relpath (cwd path start : PStr) : Except PyErr PStr := posix_relpath cwd path start

/-- `strip_prefix(s, prefix)` from the source (the name is adjusted because
Lean reserves the identifier ending): returns `s` with `pre` removed from
its front when `pre` is nonempty and `s` starts with it, else `s`. -/
def stripPre (s pre : PStr) : PStr :=
  if pre ≠ [] ∧ pre.isPrefixOf s then s.drop pre.length else s

/-- `BaseTestLayout.break_down`: split on `os.sep`; drop a trailing
`__init__.py` component, else strip a trailing `.py` extension. -/
def break_down (path : PStr) : List PStr :=
  let parts := splitOnChar sep path
  match parts.getLast? with
  | none => parts
  | some lastPart =>
    if lastPart = pstr "__init__.py" then parts.dropLast
    else if (pstr ".py").isSuffixOf lastPart then parts.dropLast ++ [dropRightN lastPart 3]
    else parts

/-- `BaseTestLayout.glue_parts`: rejoin components, either appending a
`__init__.py` component or re-adding `.py` to the last component
(`none` models the `IndexError` of `parts[-1]` on an empty list). -/
def glue_parts (parts : List PStr) (use_under_under_init : Bool) : Option PStr :=
  if use_under_under_init then some (pyJoin [sep] (parts ++ [pstr "__init__.py"]))
  else
    match parts.getLast? with
    | none => none
    | some lastPart => some (pyJoin [sep] (parts.dropLast ++ [lastPart ++ pstr ".py"]))

/-- `SideBySideLayout.is_test_file`. -/
def SideBySideLayout.is_test_file (cfg : Config) (some_file : PStr) : Except PyErr Bool :=
  let parts := break_down some_file
  match parts.getLast? with
  | none => .error .indexError
  | some filepart => .ok (cfg.pfx.isPrefixOf filepart)

/-- `SideBySideLayout.get_test_file`. -/
def SideBySideLayout.get_test_file (cfg : Config) (source_file : PStr) : Except PyErr PStr :=
  let parts := break_down source_file
  match parts.getLast? with
  | none => .error .indexError
  | some lastPart =>
    match glue_parts (parts.dropLast ++ [cfg.pfx ++ lastPart]) false with
    | none => .error .indexError
    | some r => .ok r

/-- `SideBySideLayout.get_source_candidates`. -/
def SideBySideLayout.get_source_candidates (cfg : Config) (test_file : PStr) :
    Except PyErr (List PStr) :=
  let parts := break_down test_file
  match parts.getLast? with
  | none => .error .indexError
  | some filepart =>
    if ¬ cfg.pfx.isPrefixOf filepart then .error .notATestFile
    else
      match glue_parts (parts.dropLast ++ [filepart.drop cfg.pfx.length]) false with
      | none => .error .indexError
      | some r => .ok [r]

/-- `FlatLayout.is_test_file`. -/
def FlatLayout.is_test_file (cfg : Config) (cwd some_file : PStr) : Except PyErr Bool :=
  if ¬ cfg.test_root.isPrefixOf some_file then .ok false
  else do
    let rel ← _relpath cwd some_file cfg.test_root
    let parts := break_down rel
    match parts with
    | [p0] => .ok (cfg.pfx.isPrefixOf p0)
    | _ => .ok false

/-- `FlatLayout.get_test_file`. -/
def FlatLayout.get_test_file (cfg : Config) (cwd source_file : PStr) : Except PyErr PStr :=
  if ¬ cfg.source_root.isPrefixOf source_file then .error .notUnderSourceRoot
  else do
    let rel ← _relpath cwd source_file cfg.source_root
    let parts := break_down rel
    let flat_file_name := pyJoin (pstr "_") parts
    match glue_parts ([cfg.test_root] ++ [cfg.pfx ++ flat_file_name]) false with
    | none => .error .indexError
    | some r => .ok r

/-- `FlatLayout.get_source_candidates`. -/
def FlatLayout.get_source_candidates (cfg : Config) (cwd test_file : PStr) :
    Except PyErr (List PStr) :=
  if ¬ cfg.test_root.isPrefixOf test_file then .error .notUnderTestRoot
  else do
    let rel ← _relpath cwd test_file cfg.test_root
    match break_down rel with
    | [p0] =>
      let file_name := stripPre p0 cfg.pfx
      let parts := [cfg.source_root] ++ splitOnChar '_' file_name
      match glue_parts parts false, glue_parts parts true with
      | some g1, some g2 => .ok [g1, g2]
      | _, _ => .error .indexError
    | _ => .error .invalidTestPath

/-- `FollowHierarchyLayout.is_test_file`. -/
def FollowHierarchyLayout.is_test_file (cfg : Config) (cwd some_file : PStr) :
    Except PyErr Bool :=
  if ¬ cfg.test_root.isPrefixOf some_file then .ok false
  else do
    let rel ← _relpath cwd some_file cfg.test_root
    let parts := break_down rel
    .ok (parts.all (fun p => cfg.pfx.isPrefixOf p))

/-- `FollowHierarchyLayout.get_test_file`. -/
def FollowHierarchyLayout.get_test_file (cfg : Config) (cwd source_file : PStr) :
    Except PyErr PStr :=
  if ¬ cfg.source_root.isPrefixOf source_file then .error .notUnderSourceRoot
  else do
    let rel ← _relpath cwd source_file cfg.source_root
    let parts := (break_down rel).map (fun p => cfg.pfx ++ p)
    match glue_parts ([cfg.test_root] ++ parts) false with
    | none => .error .indexError
    | some r => .ok r

/-- `FollowHierarchyLayout.get_source_candidates`. -/
def FollowHierarchyLayout.get_source_candidates (cfg : Config) (cwd test_file : PStr) :
    Except PyErr (List PStr) :=
  if ¬ cfg.test_root.isPrefixOf test_file then .error .notUnderTestRoot
  else do
    let rel ← _relpath cwd test_file cfg.test_root
    let parts := (break_down rel).map (fun p => stripPre p cfg.pfx)
    match glue_parts ([cfg.source_root] ++ parts) false,
        glue_parts ([cfg.source_root] ++ parts) true with
    | some g1, some g2 => .ok [g1, g2]
    | _, _ => .error .indexError

/-- The three layout names accepted by `get_implementing_class`. -/
inductive LayoutKind where
  | sideBySide
  | flat
  | followHierarchy
deriving DecidableEq

/-- `get_test_file` of the layout class selected by `L`. -/
def layout_get_test_file (L : LayoutKind) (cfg : Config) (cwd source_file : PStr) :
    Except PyErr PStr :=
  match L with
  | .sideBySide => SideBySideLayout.get_test_file cfg source_file
  | .flat => FlatLayout.get_test_file cfg cwd source_file
  | .followHierarchy => FollowHierarchyLayout.get_test_file cfg cwd source_file

/-- `get_source_candidates` of the layout class selected by `L`. -/
def layout_get_source_candidates (L : LayoutKind) (cfg : Config) (cwd test_file : PStr) :
    Except PyErr (List PStr) :=
  match L with
  | .sideBySide => SideBySideLayout.get_source_candidates cfg test_file
  | .flat => FlatLayout.get_source_candidates cfg cwd test_file
  | .followHierarchy => FollowHierarchyLayout.get_source_candidates cfg cwd test_file

/-- `is_home_dir(path)`. -/
def is_home_dir (env : Env) (path : PStr) : Bool := realpath env.cwd path = env.home

/-- `is_fs_root(path)`. -/
def is_fs_root (cfg : Config) (env : Env) (path : PStr) : Bool :=
  realpath env.cwd path = pstr "/" ∨ (cfg.stopAtHome ∧ is_home_dir env path)

/-- The `while not is_fs_root(path)` loop of `find_project_root`, with an
explicit step budget.  Every caller passes one more than the depth of the
canonical form of `path`, which is exactly the number of iterations the
loop can make before `is_fs_root` stops it (each `os.path.pardir` join
removes one canonical segment), so the `0` case is unreachable from
`find_project_root`. -/
def fpr_go (cfg : Config) (env : Env) : Nat → PStr → Except PyErr PStr
  | 0, _ => .error .recursionLimit
  | fuel + 1, path =>
    if is_fs_root cfg env path then .error .projectRootNotFound
    else if cfg.indicators.any (fun i => pexists env (pjoin path i)) then .ok (normpath path)
    else fpr_go cfg env fuel (pjoin path (pstr ".."))

/-- The self-recursion of `find_project_root` on non-directory arguments,
with an explicit budget.  The budget only runs out when the walk reaches
`/` and `/` is not a directory, where the Python original recurses forever
(modelled by `recursionLimit`). -/
def find_project_root_go (cfg : Config) (env : Env) : Nat → PStr → Except PyErr PStr
  | 0, _ => .error .recursionLimit
  | fuel + 1, path =>
    if isdir env path then
      fpr_go cfg env ((canonComps env.cwd path).length + 1) path
    else find_project_root_go cfg env fuel (dirname (realpath env.cwd path))

/-- `find_project_root(path)`. -/
def find_project_root (cfg : Config) (env : Env) (path : PStr) : Except PyErr PStr :=
  find_project_root_go cfg env ((canonComps env.cwd path).length + 1) path

/-- `find_source_root(path)`. -/
def find_source_root (cfg : Config) (env : Env) (path : PStr) : Except PyErr PStr := do
  let root ← find_project_root cfg env path
  .ok (pjoin root cfg.source_root)

/-- `get_tests_root(path)` (note: `os.sep.join`, not `os.path.join`). -/
def get_tests_root (cfg : Config) (env : Env) (path : PStr) : Except PyErr PStr := do
  let root ← find_project_root cfg env path
  .ok (root ++ [sep] ++ cfg.test_root)

/-- The `slashgenerator` inner generator of `find_source_file_for_test_file`:
all ways to pick `length` interlacing separators from `select_from` followed
by one final piece from `select_last_from`, in generation order. -/
def slashgenerator (length : Nat) (select_from select_last_from : List PStr) :
    List (List PStr) :=
  match length with
  | 0 => select_last_from.map (fun opt => [opt])
  | n + 1 =>
    select_from.flatMap (fun opt =>
      (slashgenerator n select_from select_last_from).map (fun x => opt :: x))

/-- The `interlace` inner generator: alternates elements of `x` and `y`. -/
def interlace : List PStr → List PStr → List PStr
  | [], ys => ys
  | x :: xs, [] => x :: xs
  | x :: xs, y :: ys => x :: y :: interlace xs ys

/-- The ordered candidate list the flat branch of
`find_source_file_for_test_file` probes: the loop body factored out, with
`src_root` and the prefix-stripped `sourcefile` as inputs. -/
def flat_guesses (src_root sourcefile : PStr) : List PStr :=
  let se := splitext sourcefile
  let parts := splitOnChar '_' se.1
  let intermediate_pairs := [pstr "/", pstr "_"]
  let last_pair := [se.2, pstr "/__init__" ++ se.2]
  (slashgenerator (parts.length - 1) intermediate_pairs last_pair).map
    (fun slashes => pjoin src_root (joinAll (interlace parts slashes)))

/-- `find_source_file_for_test_file(path)`. -/
def find_source_file_for_test_file (cfg : Config) (env : Env) (path : PStr) :
    Except PyErr PStr := do
  let testsroot ← get_tests_root cfg env path
  let rel_path ← _relpath env.cwd path testsroot
  let parts := (splitOnChar sep rel_path).map (fun p => stripPre p cfg.pfx)
  let sourcefile := pyJoin [sep] parts
  let src_root ← find_source_root cfg env path
  if cfg.tests_structure = pstr "flat" then
    match (flat_guesses src_root sourcefile).find? (fun g => isfile env g) with
    | some g => .ok g
    | none => .error .sourceFileNotFound
  else
    let sourcefile := pjoin src_root sourcefile
    if isfile env sourcefile then .ok sourcefile
    else
      let fe := splitext sourcefile
      let sourcefile2 := fe.1 ++ [sep] ++ pstr "__init__" ++ fe.2
      if isfile env sourcefile2 then .ok sourcefile2
      else .error .sourceFileNotFound

/-- The top-level `is_test_file(path)`: membership test by string prefix of
absolute paths (the layout-strategy route is commented out in the source). -/
def is_test_file (cfg : Config) (env : Env) (path : PStr) : Except PyErr Bool := do
  let tr ← get_tests_root cfg env path
  let testroot := abspath env.cwd tr
  let pabs := abspath env.cwd path
  .ok (testroot.isPrefixOf pabs)

/-- Specification-side notion (for comparison with `is_test_file`): a path
lies under a root when the root's canonical absolute segments are a prefix
of the path's canonical absolute segments. -/
def liesUnderB (cwd path root : PStr) : Bool :=
  (canonComps cwd root).isPrefixOf (canonComps cwd path)

/-! ## Segment hygiene predicates -/

/-- A well-formed path segment: nonempty, separator-free, and not one of
the special components `.` and `..`. -/
def Seg (y : PStr) : Prop := y ≠ [] ∧ y ≠ pstr "." ∧ y ≠ pstr ".." ∧ sep ∉ y

/-- A nonempty list of well-formed segments. -/
def Segs (l : List PStr) : Prop := l ≠ [] ∧ ∀ y ∈ l, Seg y

instance (y : PStr) : Decidable (Seg y) := by unfold Seg; infer_instance

instance (l : List PStr) : Decidable (Segs l) := by unfold Segs; infer_instance

/-- `a` with a separator appended unless it is empty or already ends in
one: the first operand's contribution to `posixpath.join(a, b)` for a
relative `b`. -/
def dirSlash (a : PStr) : PStr :=
  if a = [] ∨ a.getLast? = some sep then a else a ++ [sep]

/-- Append the `.py` extension to the last element of a segment list: the
relative path of a plain Python module with the given dotted-path
segments, before joining with separators. -/
def withPy : List PStr → List PStr
  | [] => []
  | [x] => [x ++ pstr ".py"]
  | x :: y :: xs => x :: withPy (y :: xs)

/-- The canonical directory `t` is a stop boundary of the upward walk of
`find_project_root`: the filesystem root, or the home directory when the
stop-at-home flag is set. -/
def BoundaryAt (cfg : Config) (env : Env) (t : List PStr) : Prop :=
  t = [] ∨ (cfg.stopAtHome = true ∧ mkAbs t = env.home)

instance (cfg : Config) (env : Env) (t : List PStr) : Decidable (BoundaryAt cfg env t) := by
  unfold BoundaryAt
  infer_instance

/-- No configured indicator exists as a child of the canonical directory
`t`. -/
def NoIndAt (cfg : Config) (env : Env) (t : List PStr) : Prop :=
  ∀ i ∈ cfg.indicators, (t ++ [i]) ∉ env.files ∧ (t ++ [i]) ∉ env.dirs

instance (cfg : Config) (env : Env) (t : List PStr) : Decidable (NoIndAt cfg env t) := by
  unfold NoIndAt
  infer_instance

/-! ## Concrete configurations and filesystems used in the examples -/

/-- The standard plugin configuration of the spec's scenarios:
`sourceRoot=src`, `testRoot=tests`, `prefix=test_`, indicator `setup.py`,
flat layout, no stop at the home directory. -/
def cfgStd : Config :=
  { source_root := pstr "src", test_root := pstr "tests", pfx := pstr "test_",
    indicators := [pstr "setup.py"], stopAtHome := false,
    tests_structure := pstr "flat" }

/-- A filesystem containing only the source module `src/pkg/mod.py`
(relative to the root), with working directory `/`. -/
def envC1 : Env :=
  { cwd := pstr "/", home := pstr "/home/u",
    files := [[pstr "src", pstr "pkg", pstr "mod.py"], [pstr "src", pstr "my_mod.py"]],
    dirs := [[]] }

/-- A project at `/proj` (indicator `setup.py`) where both
`src/pkg/mod/__init__.py` and `src/pkg_mod.py` exist. -/
def envC2a : Env :=
  { cwd := pstr "/", home := pstr "/home/u",
    files := [[pstr "proj", pstr "setup.py"],
      [pstr "proj", pstr "src", pstr "pkg", pstr "mod", pstr "__init__.py"],
      [pstr "proj", pstr "src", pstr "pkg_mod.py"]],
    dirs := [[], [pstr "proj"], [pstr "proj", pstr "tests"], [pstr "proj", pstr "src"]] }

/-- The same project with no matching source file. -/
def envC2b : Env :=
  { cwd := pstr "/", home := pstr "/home/u",
    files := [[pstr "proj", pstr "setup.py"]],
    dirs := [[], [pstr "proj"], [pstr "proj", pstr "tests"], [pstr "proj", pstr "src"]] }

/-- A project at `/proj` with a `tests` directory and a sibling directory
`testsuite` whose name extends it, holding `testsuite/x.py`. -/
def envC3 : Env :=
  { cwd := pstr "/", home := pstr "/home/u",
    files := [[pstr "proj", pstr "setup.py"], [pstr "proj", pstr "testsuite", pstr "x.py"]],
    dirs := [[], [pstr "proj"], [pstr "proj", pstr "tests"],
      [pstr "proj", pstr "testsuite"]] }

/-- Directories `/a/b` with no indicator anywhere. -/
def envC8a : Env :=
  { cwd := pstr "/", home := pstr "/home/u",
    files := [], dirs := [[], [pstr "a"], [pstr "a", pstr "b"]] }

/-- Directories `/a/b` with the indicator at `/a`. -/
def envC8b : Env :=
  { cwd := pstr "/", home := pstr "/home/u",
    files := [[pstr "a", pstr "setup.py"]],
    dirs := [[], [pstr "a"], [pstr "a", pstr "b"]] }

/-- Directories `/a/b` with the indicator only at the filesystem root. -/
def envC9 : Env :=
  { cwd := pstr "/", home := pstr "/home/u",
    files := [[pstr "setup.py"]], dirs := [[], [pstr "a"], [pstr "a", pstr "b"]] }

/-! ## Lemmas about `splitOnChar` and `pyJoin` -/

theorem splitOnChar_ne_nil (c : Char) (l : PStr) : splitOnChar c l ≠ [] := by
  cases l with
  | nil => simp [splitOnChar]
  | cons x xs =>
    simp only [splitOnChar]
    rcases h : splitOnChar c xs with _ | ⟨h', t⟩
    · simp
    · by_cases hx : x = c <;> simp [hx]

theorem splitOnChar_cons_sep (c : Char) (l : PStr) :
    splitOnChar c (c :: l) = [] :: splitOnChar c l := by
  simp only [splitOnChar]
  cases h : splitOnChar c l with
  | nil => exact absurd h (splitOnChar_ne_nil c l)
  | cons h' t => simp

theorem splitOnChar_append_cons (c : Char) (a b : PStr) :
    splitOnChar c (a ++ c :: b) = splitOnChar c a ++ splitOnChar c b := by
  induction a with
  | nil => rw [List.nil_append, splitOnChar_cons_sep]; rfl
  | cons x xs ih =>
    by_cases hx : x = c
    · subst hx
      rw [List.cons_append, splitOnChar_cons_sep, splitOnChar_cons_sep, ih, List.cons_append]
    · rw [List.cons_append]
      simp only [splitOnChar, ih]
      rcases h : splitOnChar c xs with _ | ⟨h', t⟩
      · exact absurd h (splitOnChar_ne_nil c xs)
      · simp [hx]

theorem splitOnChar_append_sep (c : Char) (a b : PStr) :
    splitOnChar c ((a ++ [c]) ++ b) = splitOnChar c a ++ splitOnChar c b := by
  rw [List.append_assoc, List.singleton_append, splitOnChar_append_cons]

theorem splitOnChar_of_not_mem {c : Char} {l : PStr} (h : c ∉ l) :
    splitOnChar c l = [l] := by
  induction l with
  | nil => rfl
  | cons x xs ih =>
    simp only [List.mem_cons, not_or] at h
    have hx : ¬ x = c := fun hh => h.1 hh.symm
    simp only [splitOnChar, ih h.2]
    simp [hx]

theorem mem_splitOnChar_not_mem {c : Char} {l : PStr} {y : PStr}
    (hy : y ∈ splitOnChar c l) : c ∉ y := by
  induction l generalizing y with
  | nil =>
    simp only [splitOnChar, List.mem_singleton] at hy
    subst hy; simp
  | cons x xs ih =>
    simp only [splitOnChar] at hy
    rcases h : splitOnChar c xs with _ | ⟨h', t⟩
    · exact absurd h (splitOnChar_ne_nil c xs)
    · rw [h] at hy
      have hy : y ∈ (if x = c then [] :: h' :: t else (x :: h') :: t) := hy
      by_cases hx : x = c
      · rw [if_pos hx] at hy
        rcases List.mem_cons.mp hy with hy1 | hy1
        · subst hy1; simp
        · exact ih (show y ∈ splitOnChar c xs by rw [h]; exact hy1)
      · rw [if_neg hx] at hy
        rcases List.mem_cons.mp hy with hy1 | hy1
        · subst hy1
          intro hmem
          rcases List.mem_cons.mp hmem with hc | hc
          · exact hx hc.symm
          · exact ih (show h' ∈ splitOnChar c xs by rw [h]; exact List.mem_cons_self h' t) hc
        · exact ih (show y ∈ splitOnChar c xs by rw [h]; exact List.mem_cons_of_mem h' hy1)

theorem pyJoin_cons (s : PStr) (x : PStr) (l : List PStr) (hl : l ≠ []) :
    pyJoin s (x :: l) = x ++ s ++ pyJoin s l := by
  cases l with
  | nil => exact absurd rfl hl
  | cons y ys => rfl

theorem pyJoin_append (s : PStr) (a b : List PStr) (ha : a ≠ []) (hb : b ≠ []) :
    pyJoin s (a ++ b) = pyJoin s a ++ s ++ pyJoin s b := by
  induction a with
  | nil => exact absurd rfl ha
  | cons x xs ih =>
    cases xs with
    | nil => cases b with
      | nil => exact absurd rfl hb
      | cons y ys => simp [pyJoin]
    | cons z zs =>
      rw [List.cons_append, pyJoin_cons _ _ _ (by simp), pyJoin_cons _ _ _ (by simp),
        ih (by simp) ]
      simp [List.append_assoc]

theorem splitOnChar_pyJoin (c : Char) (l : List PStr) (hl : l ≠ [])
    (hfree : ∀ y ∈ l, c ∉ y) : splitOnChar c (pyJoin [c] l) = l := by
  induction l with
  | nil => exact absurd rfl hl
  | cons x xs ih =>
    cases xs with
    | nil =>
      simp only [pyJoin]
      exact splitOnChar_of_not_mem (hfree x (List.mem_cons_self _ _))
    | cons z zs =>
      rw [pyJoin_cons _ _ _ (by simp), List.append_assoc, List.singleton_append,
        splitOnChar_append_cons,
        splitOnChar_of_not_mem (hfree x (List.mem_cons_self _ _)),
        ih (by simp) (fun y hy => hfree y (List.mem_cons.mpr (Or.inr hy)))]
      simp

theorem commonPrefixLen_self (l : List PStr) : commonPrefixLen l l = l.length := by
  induction l with
  | nil => rfl
  | cons x xs ih => simp [commonPrefixLen, ih]

theorem commonPrefixLen_append (l e : List PStr) :
    commonPrefixLen l (l ++ e) = l.length := by
  induction l with
  | nil => cases e <;> rfl
  | cons x xs ih => simp [commonPrefixLen, ih]

/-! ## Lemmas about `ncStep` and `normComps` -/

theorem ncStep_empty (islash : Bool) (acc : List PStr) : ncStep islash acc [] = acc := by
  simp [ncStep]

theorem ncStep_seg (islash : Bool) (acc : List PStr) {y : PStr} (h1 : y ≠ [])
    (h2 : y ≠ pstr ".") (h3 : y ≠ pstr "..") : ncStep islash acc y = acc ++ [y] := by
  rw [ncStep, if_neg (by simp [h1, h2]), if_pos (Or.inl h3)]

theorem ncStep_pardir_true (acc : List PStr) (h : pstr ".." ∉ acc) :
    ncStep true acc (pstr "..") = acc.dropLast := by
  rw [ncStep, if_neg (by decide)]
  rw [if_neg]
  · rcases acc with _ | _
    · rw [if_neg (by simp)]; rfl
    · rw [if_pos (by simp)]
  · rintro (h1 | h2 | h3)
    · exact h1 rfl
    · exact absurd h2.1 (by decide)
    · rcases List.getLast?_eq_some_iff.mp h3.2 with ⟨ys, rfl⟩
      exact h (List.mem_append.mpr (Or.inr (List.mem_singleton.mpr rfl)))

theorem mem_ncStep {islash : Bool} {acc : List PStr} {comp y : PStr}
    (hy : y ∈ ncStep islash acc comp) :
    y ∈ acc ∨ (y = comp ∧ comp ≠ [] ∧ comp ≠ pstr ".") := by
  unfold ncStep at hy
  split at hy
  · exact Or.inl hy
  · split at hy
    · rcases List.mem_append.mp hy with h | h
      · exact Or.inl h
      · rename_i hne _
        simp only [not_or] at hne
        exact Or.inr ⟨List.mem_singleton.mp h, hne.1, hne.2⟩
    · split at hy
      · exact Or.inl ((List.dropLast_prefix acc).subset hy)
      · exact Or.inl hy

theorem no_pardir_ncStep {islash : Bool} {acc : List PStr} (comp : PStr)
    (h : pstr ".." ∉ acc) (hc : comp ≠ pstr "..") : pstr ".." ∉ ncStep islash acc comp := by
  intro hmem
  rcases mem_ncStep hmem with hm | hm
  · exact h hm
  · exact hc hm.1.symm

theorem no_pardir_ncStep_true {acc : List PStr} (comp : PStr)
    (h : pstr ".." ∉ acc) : pstr ".." ∉ ncStep true acc comp := by
  by_cases hc : comp = pstr ".."
  · subst hc
    rw [ncStep_pardir_true acc h]
    exact fun hm => h ((List.dropLast_prefix acc).subset hm)
  · exact no_pardir_ncStep comp h hc

theorem no_pardir_foldl (comps : List PStr) (acc : List PStr)
    (h : pstr ".." ∉ acc) : pstr ".." ∉ comps.foldl (ncStep true) acc := by
  induction comps generalizing acc with
  | nil => exact h
  | cons x xs ih => exact ih _ (no_pardir_ncStep_true x h)

theorem normComps_no_pardir (comps : List PStr) : pstr ".." ∉ normComps true comps :=
  no_pardir_foldl comps [] (by simp)

theorem mem_foldl_ncStep {islash : Bool} {comps : List PStr} {acc : List PStr} {y : PStr}
    (hy : y ∈ comps.foldl (ncStep islash) acc) :
    y ∈ acc ∨ (y ∈ comps ∧ y ≠ [] ∧ y ≠ pstr ".") := by
  induction comps generalizing acc with
  | nil => exact Or.inl hy
  | cons x xs ih =>
    rcases ih hy with h | h
    · rcases mem_ncStep h with h' | h'
      · exact Or.inl h'
      · exact Or.inr ⟨h'.1 ▸ List.mem_cons_self x xs, h'.1 ▸ h'.2.1, h'.1 ▸ h'.2.2⟩
    · exact Or.inr ⟨List.mem_cons_of_mem x h.1, h.2⟩

theorem mem_normComps {islash : Bool} {comps : List PStr} {y : PStr}
    (hy : y ∈ normComps islash comps) : y ∈ comps ∧ y ≠ [] ∧ y ≠ pstr "." := by
  rcases mem_foldl_ncStep hy with h | h
  · simp at h
  · exact h

theorem foldl_ncStep_segs {islash : Bool} (l : List PStr)
    (hl : ∀ y ∈ l, y ≠ [] ∧ y ≠ pstr "." ∧ y ≠ pstr "..") (acc : List PStr) :
    l.foldl (ncStep islash) acc = acc ++ l := by
  induction l generalizing acc with
  | nil => simp
  | cons x xs ih =>
    obtain ⟨h1, h2, h3⟩ := hl x (List.mem_cons_self x xs)
    rw [List.foldl_cons, ncStep_seg islash acc h1 h2 h3,
      ih (fun y hy => hl y (List.mem_cons_of_mem x hy)), List.append_assoc]
    rfl

theorem normComps_segs {islash : Bool} (l : List PStr)
    (hl : ∀ y ∈ l, y ≠ [] ∧ y ≠ pstr "." ∧ y ≠ pstr "..") :
    normComps islash l = l := by
  rw [normComps, foldl_ncStep_segs l hl []]
  rfl

theorem normComps_append_seg (X : List PStr) {y : PStr} (h1 : y ≠ [])
    (h2 : y ≠ pstr ".") (h3 : y ≠ pstr "..") :
    normComps true (X ++ [y]) = normComps true X ++ [y] := by
  rw [normComps, List.foldl_append, List.foldl_cons, ncStep_seg true _ h1 h2 h3]
  rfl

theorem normComps_append_pardir (X : List PStr) :
    normComps true (X ++ [pstr ".."]) = (normComps true X).dropLast := by
  have h : normComps true (X ++ [pstr ".."]) = ncStep true (normComps true X) (pstr "..") := by
    rw [normComps, List.foldl_append, List.foldl_cons, List.foldl_nil]
    rfl
  rw [h, ncStep_pardir_true _ (normComps_no_pardir X)]

theorem normComps_mid_empty (islash : Bool) (Y Z : List PStr) :
    normComps islash (Y ++ [[]] ++ Z) = normComps islash (Y ++ Z) := by
  rw [normComps, normComps, List.foldl_append, List.foldl_append, List.foldl_append,
    List.foldl_cons, ncStep_empty]
  rfl

/-! ## Composition lemmas for `absRaw` and `canonComps` -/

theorem pjoin_nonabs {b : PStr} (a : PStr) (hb : isAbs b = false) :
    pjoin a b = dirSlash a ++ b := by
  rw [pjoin, if_neg (by simp [hb]), dirSlash]
  by_cases h : a = [] ∨ a.getLast? = some sep
  · rw [if_pos h, if_pos h]
  · rw [if_neg h, if_neg h, List.append_assoc]

theorem isAbs_cons (h : Char) (t : PStr) : isAbs (h :: t) = (sep == h) := by
  show List.isPrefixOf [sep] (h :: t) = (sep == h)
  simp [List.isPrefixOf]

theorem isAbs_nil : isAbs [] = false := rfl

theorem isAbs_append {r : PStr} (x : PStr) (hr : r ≠ []) : isAbs (r ++ x) = isAbs r := by
  cases r with
  | nil => exact absurd rfl hr
  | cons h t => rw [List.cons_append, isAbs_cons, isAbs_cons]

theorem not_isAbs_of_not_mem_sep {y : PStr} (hy : sep ∉ y) : isAbs y = false := by
  cases y with
  | nil => rfl
  | cons h t =>
    rw [isAbs_cons]
    simp only [List.mem_cons, not_or] at hy
    simp [fun hh : sep = h => hy.1 hh]

theorem dirSlash_eq_nil_iff (a : PStr) : dirSlash a = [] ↔ a = [] := by
  rw [dirSlash]
  split
  · simp
  · rename_i h
    simp only [not_or] at h
    simp [h.1]

theorem isAbs_dirSlash_append (a x : PStr) (ha : a ≠ []) :
    isAbs (dirSlash a ++ x) = isAbs a := by
  rw [dirSlash]
  split
  · exact isAbs_append x ha
  · rw [List.append_assoc, isAbs_append _ ha]

/-- The master rewriting lemma: inside `normComps true`, splitting
`dirSlash a ++ t` is the same as splitting `a` and `t` separately. -/
theorem nc_dirSlash (Y Z : List PStr) (a t : PStr) :
    normComps true (Y ++ splitOnChar sep (dirSlash a ++ t) ++ Z) =
    normComps true (Y ++ (splitOnChar sep a ++ splitOnChar sep t) ++ Z) := by
  by_cases ha : a = []
  · subst ha
    show normComps true (Y ++ splitOnChar sep t ++ Z) =
      normComps true (Y ++ ([[]] ++ splitOnChar sep t) ++ Z)
    have h := normComps_mid_empty true Y (splitOnChar sep t ++ Z)
    simp only [List.append_assoc] at h ⊢
    exact h.symm
  · by_cases hlast : a.getLast? = some sep
    · rcases List.getLast?_eq_some_iff.mp hlast with ⟨a', rfl⟩
      have hd : dirSlash (a' ++ [sep]) = a' ++ [sep] := by
        rw [dirSlash, if_pos (Or.inr (by rw [List.getLast?_concat]))]
      have hsplit : splitOnChar sep (a' ++ [sep]) = splitOnChar sep a' ++ [[]] := by
        have h0 : a' ++ [sep] = a' ++ sep :: [] := rfl
        rw [h0, splitOnChar_append_cons]
        rfl
      rw [hd, splitOnChar_append_sep, hsplit]
      have h := normComps_mid_empty true (Y ++ splitOnChar sep a') (splitOnChar sep t ++ Z)
      simp only [List.append_assoc] at h ⊢
      exact h.symm
    · have hd : dirSlash a = a ++ [sep] := by
        rw [dirSlash, if_neg (by simp [ha, hlast])]
      rw [hd, splitOnChar_append_sep]

theorem canonComps_of_abs {cwd p : PStr} (hp : isAbs p = true) :
    canonComps cwd p = normComps true (splitOnChar sep p) := by
  rw [canonComps, absRaw, if_pos hp]

theorem canonComps_of_nonabs {cwd p : PStr} (hp : isAbs p = false) :
    canonComps cwd p = normComps true (splitOnChar sep cwd ++ splitOnChar sep p) := by
  rw [canonComps, absRaw, if_neg (by simp [hp]), pjoin_nonabs cwd hp]
  have h := nc_dirSlash [] [] cwd p
  simp only [List.nil_append, List.append_nil] at h
  exact h

/-- Joining a single relative chunk `x` (no separators inside) onto any
path appends it as one more component before normalisation. -/
theorem canonComps_pjoin_chunk (cwd q x : PStr) (hx : sep ∉ x) :
    canonComps cwd (pjoin q x) =
      normComps true (splitOnChar sep (absRaw cwd q) ++ [x]) := by
  have hxabs : isAbs x = false := not_isAbs_of_not_mem_sep hx
  rw [pjoin_nonabs q hxabs]
  by_cases hq : isAbs q = true
  · have hqnil : q ≠ [] := by
      intro h
      rw [h, isAbs_nil] at hq
      exact absurd hq (by simp)
    have habs : isAbs (dirSlash q ++ x) = true := by
      rw [isAbs_dirSlash_append q x hqnil]
      exact hq
    rw [canonComps_of_abs habs, absRaw, if_pos hq]
    have h1 := nc_dirSlash [] [] q x
    simp only [List.nil_append, List.append_nil] at h1
    rw [h1, splitOnChar_of_not_mem hx]
  · have hq' : isAbs q = false := by simpa using hq
    have habs : isAbs (dirSlash q ++ x) = false := by
      by_cases hqnil : q = []
      · subst hqnil
        rw [show dirSlash [] = [] from rfl, List.nil_append]
        exact hxabs
      · rw [isAbs_dirSlash_append q x hqnil]
        exact hq'
    rw [canonComps_of_nonabs habs, absRaw, if_neg (by simp [hq']), pjoin_nonabs cwd hq']
    have h1 := nc_dirSlash (splitOnChar sep cwd) [] q x
    simp only [List.append_nil] at h1
    have h2 := nc_dirSlash [] [x] cwd q
    simp only [List.nil_append] at h2
    rw [h1, h2, splitOnChar_of_not_mem hx]
    simp only [List.append_assoc]

theorem canonComps_pjoin_seg (cwd q : PStr) {y : PStr} (hy : Seg y) :
    canonComps cwd (pjoin q y) = canonComps cwd q ++ [y] := by
  obtain ⟨h1, h2, h3, h4⟩ := hy
  rw [canonComps_pjoin_chunk cwd q y h4, normComps_append_seg _ h1 h2 h3]
  rfl

theorem canonComps_pjoin_pardir (cwd q : PStr) :
    canonComps cwd (pjoin q (pstr "..")) = (canonComps cwd q).dropLast := by
  rw [canonComps_pjoin_chunk cwd q (pstr "..") (by decide), normComps_append_pardir]
  rfl

theorem canonComps_seg (cwd p : PStr) : ∀ y ∈ canonComps cwd p, Seg y := by
  intro y hy
  have h1 := mem_normComps hy
  exact ⟨h1.2.1, h1.2.2, fun hdd => normComps_no_pardir _ (hdd ▸ hy),
    mem_splitOnChar_not_mem h1.1⟩

theorem pyJoin_ne_nil {s : PStr} {l : List PStr} (hl : l ≠ [])
    (hhead : ∀ y ∈ l, y ≠ []) : pyJoin s l ≠ [] := by
  cases l with
  | nil => exact absurd rfl hl
  | cons x xs =>
    cases xs with
    | nil => exact hhead x (List.mem_cons_self _ _)
    | cons z zs =>
      intro h
      exact hhead x (List.mem_cons_self _ _) (List.append_eq_nil.mp
        ((List.append_eq_nil.mp (by simpa [pyJoin, List.append_assoc] using h)).1)).1

theorem mkAbs_eq_root_iff {l : List PStr} (hl : ∀ y ∈ l, y ≠ []) :
    mkAbs l = pstr "/" ↔ l = [] := by
  constructor
  · intro h
    by_contra hne
    apply @pyJoin_ne_nil [sep] _ hne hl
    have hp : pstr "/" = sep :: ([] : PStr) := rfl
    rw [mkAbs, hp] at h
    exact (List.cons.injEq _ _ _ _ ▸ h).2
  · rintro rfl
    rfl

theorem realpath_eq_root_iff (cwd q : PStr) :
    realpath cwd q = pstr "/" ↔ canonComps cwd q = [] := by
  rw [realpath]
  exact mkAbs_eq_root_iff (fun y hy => (canonComps_seg cwd q y hy).1)

theorem normpath_abs_form {p : PStr} (hp : isAbs p = true) :
    normpath p =
      (if (pstr "//").isPrefixOf p ∧ ¬ (pstr "///").isPrefixOf p
        then [sep, sep] else [sep]) ++
        pyJoin [sep] (normComps true (splitOnChar sep p)) := by
  have hpnil : p ≠ [] := by
    intro h
    rw [h, isAbs_nil] at hp
    exact absurd hp (by simp)
  rw [normpath, if_neg hpnil]
  simp only [hp, if_true, eq_self_iff_true]
  have e1 : pstr "/" = [sep] := rfl
  have e2 : pstr "//" = [sep, sep] := rfl
  rw [e1, e2, if_neg]
  split
  · simp
  · simp

theorem filter_split_abspath {cwd p : PStr} (h : isAbs (absRaw cwd p) = true) :
    (splitOnChar sep (abspath cwd p)).filter (fun x => decide (x ≠ [])) =
      canonComps cwd p := by
  rw [abspath, normpath_abs_form h]
  have hNc : canonComps cwd p = normComps true (splitOnChar sep (absRaw cwd p)) := rfl
  rw [hNc]
  set N := normComps true (splitOnChar sep (absRaw cwd p)) with hN
  have hNseg : ∀ y ∈ N, y ≠ [] ∧ sep ∉ y := by
    intro y hy
    rw [hN] at hy
    have h1 := mem_normComps hy
    exact ⟨h1.2.1, mem_splitOnChar_not_mem h1.1⟩
  have tailEq : (splitOnChar sep (pyJoin [sep] N)).filter (fun x => decide (x ≠ [])) = N := by
    by_cases hN0 : N = []
    · rw [hN0]
      decide
    · rw [splitOnChar_pyJoin sep N hN0 (fun y hy => (hNseg y hy).2)]
      exact List.filter_eq_self.mpr (fun y hy => by simpa using (hNseg y hy).1)
  split
  · rw [show ([sep, sep] : PStr) ++ pyJoin [sep] N = sep :: sep :: pyJoin [sep] N from rfl,
      splitOnChar_cons_sep, splitOnChar_cons_sep]
    simpa using tailEq
  · rw [show ([sep] : PStr) ++ pyJoin [sep] N = sep :: pyJoin [sep] N from rfl,
      splitOnChar_cons_sep]
    simpa using tailEq

theorem absRaw_append {cwd R : PStr} (x : PStr) (hR : R ≠ []) :
    absRaw cwd (R ++ x) = absRaw cwd R ++ x := by
  by_cases h : isAbs R = true
  · rw [absRaw, if_pos (by rw [isAbs_append x hR]; exact h), absRaw, if_pos h]
  · have h' : isAbs R = false := by simpa using h
    rw [absRaw, if_neg (by rw [isAbs_append x hR]; simp [h']), absRaw, if_neg (by simp [h']),
      pjoin_nonabs _ (by rw [isAbs_append x hR]; exact h'), pjoin_nonabs cwd h',
      List.append_assoc]

theorem absRaw_abs_of_cwd {cwd : PStr} (p : PStr) (hcwd : isAbs cwd = true) :
    isAbs (absRaw cwd p) = true := by
  by_cases h : isAbs p = true
  · rw [absRaw, if_pos h]
    exact h
  · have h' : isAbs p = false := by simpa using h
    have hc : cwd ≠ [] := by
      intro hh
      rw [hh, isAbs_nil] at hcwd
      exact absurd hcwd (by simp)
    rw [absRaw, if_neg (by simp [h']), pjoin_nonabs cwd h', isAbs_dirSlash_append cwd p hc]
    exact hcwd

theorem normComps_append_segs (X : List PStr) {ext : List PStr}
    (h : ∀ y ∈ ext, y ≠ [] ∧ y ≠ pstr "." ∧ y ≠ pstr "..") :
    normComps true (X ++ ext) = normComps true X ++ ext := by
  rw [normComps, List.foldl_append, foldl_ncStep_segs ext h]
  rfl

theorem canonComps_append_under {cwd R : PStr} {ext : List PStr} (hR : R ≠ [])
    (hext : ext ≠ []) (hseg : ∀ y ∈ ext, Seg y) :
    canonComps cwd (R ++ [sep] ++ pyJoin [sep] ext) = canonComps cwd R ++ ext := by
  have hx : R ++ [sep] ++ pyJoin [sep] ext = R ++ (sep :: pyJoin [sep] ext) := by
    rw [List.append_assoc]
    rfl
  rw [hx, canonComps, absRaw_append _ hR, splitOnChar_append_cons,
    splitOnChar_pyJoin sep ext hext (fun y hy => (hseg y hy).2.2.2),
    normComps_append_segs _ (fun y hy => ⟨(hseg y hy).1, (hseg y hy).2.1, (hseg y hy).2.2.1⟩)]
  rfl

theorem posix_relpath_self (cwd : PStr) {p : PStr} (hp : p ≠ []) :
    posix_relpath cwd p p = .ok (pstr ".") := by
  unfold posix_relpath
  rw [if_neg hp]
  dsimp only
  rw [commonPrefixLen_self, Nat.sub_self, List.drop_length]
  simp

theorem posix_relpath_isOk (cwd s : PStr) {p : PStr} (hp : p ≠ []) :
    ∃ r, posix_relpath cwd p s = .ok r := by
  unfold posix_relpath
  rw [if_neg hp]
  dsimp only
  split
  · exact ⟨_, rfl⟩
  · exact ⟨_, rfl⟩

theorem posix_relpath_under {cwd R : PStr} {ext : List PStr} (hcwd : isAbs cwd = true)
    (hR : R ≠ []) (hext : ext ≠ []) (hseg : ∀ y ∈ ext, Seg y) :
    posix_relpath cwd (R ++ [sep] ++ pyJoin [sep] ext) R = .ok (pyJoin [sep] ext) := by
  have hpne : R ++ [sep] ++ pyJoin [sep] ext ≠ [] := by
    intro h
    have := (List.append_eq_nil.mp h).1
    exact (by simpa using (List.append_eq_nil.mp this).2 : False)
  unfold posix_relpath
  rw [if_neg hpne]
  dsimp only
  rw [filter_split_abspath (absRaw_abs_of_cwd R hcwd),
    filter_split_abspath (absRaw_abs_of_cwd _ hcwd),
    canonComps_append_under hR hext hseg,
    commonPrefixLen_append, Nat.sub_self, List.drop_left]
  rw [if_neg (by simpa using fun h => hext h)]
  cases ext with
  | nil => exact absurd rfl hext
  | cons e es => rfl

theorem canonComps_mkAbs (cwd : PStr) {m : List PStr} (hm : ∀ y ∈ m, Seg y) :
    canonComps cwd (mkAbs m) = m := by
  have habs : isAbs (mkAbs m) = true := by
    rw [mkAbs, isAbs_cons]
    simp
  rw [canonComps_of_abs habs, mkAbs, splitOnChar_cons_sep]
  by_cases hm0 : m = []
  · subst hm0
    decide
  · rw [splitOnChar_pyJoin sep m hm0 (fun y hy => (hm y hy).2.2.2)]
    have h := normComps_mid_empty true [] m
    simp only [List.nil_append] at h
    rw [show ([] :: m : List PStr) = [[]] ++ m from rfl, h,
      normComps_segs m (fun y hy => ⟨(hm y hy).1, (hm y hy).2.1, (hm y hy).2.2.1⟩)]

/-! ## Lemmas about `withPy`, `break_down` and `glue_parts` -/

theorem withPy_concat (l : List PStr) (y : PStr) :
    withPy (l ++ [y]) = l ++ [y ++ pstr ".py"] := by
  induction l with
  | nil => rfl
  | cons x xs ih =>
    cases xs with
    | nil => rfl
    | cons z zs =>
      have h : withPy ((x :: z :: zs) ++ [y]) = x :: withPy ((z :: zs) ++ [y]) := rfl
      rw [h, ih]
      rfl

theorem seg_append_py {a : PStr} (ha : sep ∉ a) : Seg (a ++ pstr ".py") := by
  refine ⟨by simp [pstr], ?_, ?_, ?_⟩
  · intro h
    have hlen := congrArg List.length h
    simp [pstr] at hlen
  · intro h
    have hlen := congrArg List.length h
    simp [pstr] at hlen
  · intro h
    rcases List.mem_append.mp h with h1 | h1
    · exact ha h1
    · simp [pstr, sep] at h1

theorem isPrefixOf_append_self (l x : PStr) : l.isPrefixOf (l ++ x) = true :=
  List.isPrefixOf_iff_prefix.mpr (List.prefix_append l x)

theorem stripPre_append (pre x : PStr) : stripPre (pre ++ x) pre = x := by
  by_cases h : pre = []
  · subst h
    rw [stripPre, if_neg (by simp)]
    rfl
  · rw [stripPre, if_pos ⟨h, isPrefixOf_append_self pre x⟩, List.drop_left]

theorem not_mem_pyJoin {c : Char} {s : PStr} {l : List PStr} (hs : c ∉ s)
    (hl : ∀ y ∈ l, c ∉ y) : c ∉ pyJoin s l := by
  induction l with
  | nil => simp [pyJoin]
  | cons x xs ih =>
    cases xs with
    | nil => exact hl x (List.mem_cons_self _ _)
    | cons z zs =>
      rw [pyJoin_cons _ _ _ (by simp)]
      intro hmem
      rcases List.mem_append.mp hmem with h1 | h1
      · rcases List.mem_append.mp h1 with h2 | h2
        · exact hl x (List.mem_cons_self _ _) h2
        · exact hs h2
      · exact ih (fun y hy => hl y (List.mem_cons_of_mem x hy)) h1

theorem pyJoin_getLast {s : PStr} {most : List PStr} {y : PStr} {c : Char}
    (hy : y.getLast? = some c) :
    (pyJoin s (most ++ [y])).getLast? = some c := by
  induction most with
  | nil => exact hy
  | cons x xs ih =>
    rw [List.cons_append, pyJoin_cons _ _ _ (by simp)]
    have hne : pyJoin s (xs ++ [y]) ≠ [] := by
      intro h
      rw [h] at ih
      simp at ih
    rw [List.append_assoc, List.getLast?_append_of_ne_nil _ (by
      intro h
      exact hne (List.append_eq_nil.mp h).2), List.getLast?_append_of_ne_nil _ hne]
    exact ih

theorem break_down_module {most : List PStr} {y : PStr}
    (hall : ∀ z ∈ most, Seg z) (hysep : sep ∉ y)
    (hy : y ≠ pstr "__init__") :
    break_down (pyJoin [sep] (withPy (most ++ [y]))) = most ++ [y] := by
  rw [withPy_concat]
  rw [break_down]
  have hsplit : splitOnChar sep (pyJoin [sep] (most ++ [y ++ pstr ".py"])) =
      most ++ [y ++ pstr ".py"] := by
    apply splitOnChar_pyJoin sep _ (by simp)
    intro z hz
    rcases List.mem_append.mp hz with h1 | h1
    · exact (hall z h1).2.2.2
    · rw [List.mem_singleton.mp h1]
      exact (seg_append_py hysep).2.2.2
  rw [hsplit, List.getLast?_concat]
  dsimp only
  have hni : ¬ (y ++ pstr ".py" = pstr "__init__.py") := by
    intro h
    have h2 : y ++ pstr ".py" = pstr "__init__" ++ pstr ".py" := by
      rw [h]
      rfl
    exact hy (List.append_cancel_right h2)
  rw [if_neg hni, if_pos (List.isSuffixOf_iff_suffix.mpr ⟨y, rfl⟩), List.dropLast_concat]
  have hdrop : dropRightN (y ++ pstr ".py") 3 = y := by
    rw [dropRightN]
    have hlen : (y ++ pstr ".py").length - 3 = y.length := by
      simp [pstr]
    rw [hlen]
    exact List.take_left y (pstr ".py")
  rw [hdrop]

theorem glue_parts_false (l : List PStr) (y : PStr) :
    glue_parts (l ++ [y]) false = some (pyJoin [sep] (l ++ [y ++ pstr ".py"])) := by
  rw [glue_parts, if_neg (by simp), List.getLast?_concat, List.dropLast_concat]

theorem glue_parts_true (parts : List PStr) :
    glue_parts parts true = some (pyJoin [sep] (parts ++ [pstr "__init__.py"])) := by
  rw [glue_parts, if_pos rfl]

/-! ## Layout-level lemmas -/

theorem except_bind_ok {ε α β : Type} (a : α) (f : α → Except ε β) :
    (Except.ok (ε := ε) a >>= f) = f a := rfl

theorem segs_concat_facts {most : List PStr} {y : PStr}
    (hseg : ∀ z ∈ most ++ [y], Seg z) :
    (∀ z ∈ most, Seg z) ∧ Seg y := by
  constructor
  · exact fun z hz => hseg z (List.mem_append.mpr (Or.inl hz))
  · exact hseg y (List.mem_append.mpr (Or.inr (List.mem_singleton.mpr rfl)))

theorem withPy_segs {most : List PStr} {y : PStr}
    (hseg : ∀ z ∈ most ++ [y], Seg z) :
    withPy (most ++ [y]) ≠ [] ∧ ∀ z ∈ withPy (most ++ [y]), Seg z := by
  obtain ⟨hmost, hy⟩ := segs_concat_facts hseg
  rw [withPy_concat]
  refine ⟨by simp, ?_⟩
  intro z hz
  rcases List.mem_append.mp hz with h1 | h1
  · exact hmost z h1
  · rw [List.mem_singleton.mp h1]
    exact seg_append_py hy.2.2.2

theorem flat_fwd (cfg : Config) (cwd : PStr) (segs : List PStr)
    (hcwd : isAbs cwd = true) (hsr : cfg.source_root ≠ [])
    (hsegs : Segs segs) (hlast : segs.getLast? ≠ some (pstr "__init__")) :
    FlatLayout.get_test_file cfg cwd
        (cfg.source_root ++ [sep] ++ pyJoin [sep] (withPy segs)) =
      .ok (cfg.test_root ++ [sep] ++ ((cfg.pfx ++ pyJoin (pstr "_") segs) ++ pstr ".py")) := by
  obtain ⟨hne, hseg⟩ := hsegs
  rcases List.eq_nil_or_concat segs with h0 | ⟨most, y, hconcat⟩
  · exact absurd h0 hne
  rw [List.concat_eq_append] at hconcat
  subst hconcat
  obtain ⟨hmost, hy⟩ := segs_concat_facts hseg
  obtain ⟨hwpne, hwp⟩ := withPy_segs hseg
  have hyni : y ≠ pstr "__init__" := by
    intro h
    rw [List.getLast?_concat, h] at hlast
    exact hlast rfl
  rw [FlatLayout.get_test_file,
    if_neg (not_not_intro (by
      rw [List.append_assoc]
      exact isPrefixOf_append_self cfg.source_root _)),
    show _relpath cwd (cfg.source_root ++ [sep] ++ pyJoin [sep] (withPy (most ++ [y])))
        cfg.source_root =
      posix_relpath cwd (cfg.source_root ++ [sep] ++ pyJoin [sep] (withPy (most ++ [y])))
        cfg.source_root from rfl,
    posix_relpath_under hcwd hsr hwpne hwp, except_bind_ok]
  dsimp only
  rw [break_down_module hmost hy.2.2.2 hyni,
    glue_parts_false [cfg.test_root] (cfg.pfx ++ pyJoin (pstr "_") (most ++ [y]))]
  rfl

theorem posix_relpath_under_one {cwd R f : PStr} (hcwd : isAbs cwd = true)
    (hR : R ≠ []) (hf : Seg f) :
    posix_relpath cwd (R ++ [sep] ++ f) R = .ok f :=
  @posix_relpath_under _ _ [f] hcwd hR (by simp) (by simpa using hf)

theorem pfx_join_ne_init {pre j : PStr} {c : Char} (hj : j.getLast? = some c)
    (hc : c ≠ '_') : pre ++ j ≠ pstr "__init__" := by
  intro h
  have hjne : j ≠ [] := by
    intro hh
    rw [hh] at hj
    simp at hj
  have h2 : (pre ++ j).getLast? = some c := by
    rw [List.getLast?_append_of_ne_nil _ hjne]
    exact hj
  rw [h] at h2
  have h3 : (pstr "__init__").getLast? = some '_' := by decide
  rw [h3] at h2
  exact hc (Option.some.injEq _ _ ▸ h2).symm

theorem flat_rev (cfg : Config) (cwd : PStr) (segs : List PStr)
    (hcwd : isAbs cwd = true) (htr : cfg.test_root ≠ [])
    (hsegs : Segs segs) (hpfx : sep ∉ cfg.pfx)
    (hU : ∀ z ∈ segs, '_' ∉ z) :
    FlatLayout.get_source_candidates cfg cwd
        (cfg.test_root ++ [sep] ++ (cfg.pfx ++ pyJoin (pstr "_") segs ++ pstr ".py")) =
      .ok [cfg.source_root ++ [sep] ++ pyJoin [sep] (withPy segs),
        cfg.source_root ++ [sep] ++ pyJoin [sep] segs ++ [sep] ++ pstr "__init__.py"] := by
  obtain ⟨hne, hseg⟩ := hsegs
  rcases List.eq_nil_or_concat segs with h0 | ⟨most, y, hconcat⟩
  · exact absurd h0 hne
  rw [List.concat_eq_append] at hconcat
  subst hconcat
  obtain ⟨hmost, hy⟩ := segs_concat_facts hseg
  rcases List.eq_nil_or_concat y with hy0 | ⟨y', c, hyconcat⟩
  · exact absurd hy0 hy.1
  rw [List.concat_eq_append] at hyconcat
  have hylast : y.getLast? = some c := by rw [hyconcat, List.getLast?_concat]
  have hcny : c ∈ y := by
    rw [hyconcat]
    exact List.mem_append.mpr (Or.inr (List.mem_singleton.mpr rfl))
  have hcU : c ≠ '_' := fun hcc =>
    hU y (List.mem_append.mpr (Or.inr (List.mem_singleton.mpr rfl))) (hcc ▸ hcny)
  have hjoinlast : (pyJoin (pstr "_") (most ++ [y])).getLast? = some c := pyJoin_getLast hylast
  have hsepJoin : sep ∉ pyJoin (pstr "_") (most ++ [y]) := by
    apply not_mem_pyJoin (by decide)
    intro z hz
    rcases List.mem_append.mp hz with h1 | h1
    · exact (hmost z h1).2.2.2
    · rw [List.mem_singleton.mp h1]
      exact hy.2.2.2
  have hsepPJ : sep ∉ cfg.pfx ++ pyJoin (pstr "_") (most ++ [y]) := by
    intro hm
    rcases List.mem_append.mp hm with h1 | h1
    · exact hpfx h1
    · exact hsepJoin h1
  have hfseg : Seg (cfg.pfx ++ pyJoin (pstr "_") (most ++ [y]) ++ pstr ".py") :=
    seg_append_py hsepPJ
  have hnotinit : cfg.pfx ++ pyJoin (pstr "_") (most ++ [y]) ≠ pstr "__init__" :=
    pfx_join_ne_init hjoinlast hcU
  rw [FlatLayout.get_source_candidates,
    if_neg (not_not_intro (by
      rw [List.append_assoc]
      exact isPrefixOf_append_self cfg.test_root _)),
    show _relpath cwd
        (cfg.test_root ++ [sep] ++ (cfg.pfx ++ pyJoin (pstr "_") (most ++ [y]) ++ pstr ".py"))
        cfg.test_root =
      posix_relpath cwd
        (cfg.test_root ++ [sep] ++ (cfg.pfx ++ pyJoin (pstr "_") (most ++ [y]) ++ pstr ".py"))
        cfg.test_root from rfl,
    posix_relpath_under_one hcwd htr hfseg, except_bind_ok]
  have hbd : break_down (cfg.pfx ++ pyJoin (pstr "_") (most ++ [y]) ++ pstr ".py") =
      [cfg.pfx ++ pyJoin (pstr "_") (most ++ [y])] :=
    @break_down_module [] _ (by simp) hsepPJ hnotinit
  rw [hbd]
  dsimp only
  have hstrip : stripPre (cfg.pfx ++ pyJoin (pstr "_") (most ++ [y])) cfg.pfx =
      pyJoin (pstr "_") (most ++ [y]) := stripPre_append _ _
  rw [hstrip]
  have hsplitU : splitOnChar '_' (pyJoin (pstr "_") (most ++ [y])) = most ++ [y] :=
    splitOnChar_pyJoin '_' _ (by simp) (by
      intro z hz
      rcases List.mem_append.mp hz with h1 | h1
      · exact hU z (List.mem_append.mpr (Or.inl h1))
      · rw [List.mem_singleton.mp h1]
        exact hU y (List.mem_append.mpr (Or.inr (List.mem_singleton.mpr rfl))))
  rw [hsplitU,
    show [cfg.source_root] ++ (most ++ [y]) = ([cfg.source_root] ++ most) ++ [y] from
      (List.append_assoc _ _ _).symm,
    glue_parts_false ([cfg.source_root] ++ most) y, glue_parts_true]
  dsimp only
  have e1 : pyJoin [sep] (([cfg.source_root] ++ most) ++ [y ++ pstr ".py"]) =
      cfg.source_root ++ [sep] ++ pyJoin [sep] (withPy (most ++ [y])) := by
    rw [withPy_concat, List.append_assoc]
    exact pyJoin_append [sep] [cfg.source_root] (most ++ [y ++ pstr ".py"]) (by simp) (by simp)
  have e2 : pyJoin [sep] ((([cfg.source_root] ++ most) ++ [y]) ++ [pstr "__init__.py"]) =
      cfg.source_root ++ [sep] ++ pyJoin [sep] (most ++ [y]) ++ [sep] ++ pstr "__init__.py" := by
    have hl : (([cfg.source_root] ++ most) ++ [y]) ++ [pstr "__init__.py"] =
        [cfg.source_root] ++ ((most ++ [y]) ++ [pstr "__init__.py"]) := by
      simp [List.append_assoc]
    rw [hl,
      pyJoin_append [sep] [cfg.source_root] ((most ++ [y]) ++ [pstr "__init__.py"])
        (by simp) (by simp),
      pyJoin_append [sep] (most ++ [y]) [pstr "__init__.py"] (by simp) (by simp)]
    simp only [List.append_assoc]
    rfl
  rw [e1, e2]

theorem seg_pre_append {pre z : PStr} (hpre : sep ∉ pre) (hz : Seg z) :
    Seg (pre ++ z) := by
  obtain ⟨h1, h2, h3, h4⟩ := hz
  refine ⟨by simp [h1], ?_, ?_, ?_⟩
  · cases pre with
    | nil => exact h2
    | cons p ps =>
      intro h
      have h' : p :: (ps ++ z) = ['.'] := h
      have := (List.cons.injEq _ _ _ _).mp h'
      exact h1 (List.append_eq_nil.mp this.2).2
  · cases pre with
    | nil => exact h3
    | cons p ps =>
      intro h
      have h' : p :: (ps ++ z) = ['.', '.'] := h
      have hinj := (List.cons.injEq _ _ _ _).mp h'
      cases ps with
      | nil => exact h2 hinj.2
      | cons q qs =>
        have h'' : q :: (qs ++ z) = ['.'] := hinj.2
        have hinj2 := (List.cons.injEq _ _ _ _).mp h''
        exact h1 (List.append_eq_nil.mp hinj2.2).2
  · intro hmem
    rcases List.mem_append.mp hmem with hm | hm
    · exact hpre hm
    · exact h4 hm

theorem withPy_append (a b : List PStr) (hb : b ≠ []) :
    withPy (a ++ b) = a ++ withPy b := by
  rcases List.eq_nil_or_concat b with h0 | ⟨most, y, hconcat⟩
  · exact absurd h0 hb
  rw [List.concat_eq_append] at hconcat
  subst hconcat
  rw [← List.append_assoc, withPy_concat, withPy_concat, List.append_assoc]

theorem map_pre_concat (pre : PStr) (most : List PStr) (y : PStr) :
    (most ++ [y]).map (fun p => pre ++ p) = most.map (fun p => pre ++ p) ++ [pre ++ y] := by
  simp

theorem fh_fwd (cfg : Config) (cwd : PStr) (segs : List PStr)
    (hcwd : isAbs cwd = true) (hsr : cfg.source_root ≠ [])
    (hsegs : Segs segs) (hlast : segs.getLast? ≠ some (pstr "__init__")) :
    FollowHierarchyLayout.get_test_file cfg cwd
        (cfg.source_root ++ [sep] ++ pyJoin [sep] (withPy segs)) =
      .ok (cfg.test_root ++ [sep] ++
        pyJoin [sep] (withPy (segs.map (fun p => cfg.pfx ++ p)))) := by
  obtain ⟨hne, hseg⟩ := hsegs
  rcases List.eq_nil_or_concat segs with h0 | ⟨most, y, hconcat⟩
  · exact absurd h0 hne
  rw [List.concat_eq_append] at hconcat
  subst hconcat
  obtain ⟨hmost, hy⟩ := segs_concat_facts hseg
  obtain ⟨hwpne, hwp⟩ := withPy_segs hseg
  have hyni : y ≠ pstr "__init__" := by
    intro h
    rw [List.getLast?_concat, h] at hlast
    exact hlast rfl
  rw [FollowHierarchyLayout.get_test_file,
    if_neg (not_not_intro (by
      rw [List.append_assoc]
      exact isPrefixOf_append_self cfg.source_root _)),
    show _relpath cwd (cfg.source_root ++ [sep] ++ pyJoin [sep] (withPy (most ++ [y])))
        cfg.source_root =
      posix_relpath cwd (cfg.source_root ++ [sep] ++ pyJoin [sep] (withPy (most ++ [y])))
        cfg.source_root from rfl,
    posix_relpath_under hcwd hsr hwpne hwp, except_bind_ok]
  dsimp only
  rw [break_down_module hmost hy.2.2.2 hyni, map_pre_concat,
    show [cfg.test_root] ++ (most.map (fun p => cfg.pfx ++ p) ++ [cfg.pfx ++ y]) =
      ([cfg.test_root] ++ most.map (fun p => cfg.pfx ++ p)) ++ [cfg.pfx ++ y] from
      (List.append_assoc _ _ _).symm,
    glue_parts_false ([cfg.test_root] ++ most.map (fun p => cfg.pfx ++ p)) (cfg.pfx ++ y)]
  dsimp only
  congr 1
  rw [withPy_concat, List.append_assoc,
    pyJoin_append [sep] [cfg.test_root]
      (most.map (fun p => cfg.pfx ++ p) ++ [cfg.pfx ++ y ++ pstr ".py"]) (by simp) (by simp)]
  rfl

theorem fh_rev (cfg : Config) (cwd : PStr) (segs : List PStr)
    (hcwd : isAbs cwd = true) (htr : cfg.test_root ≠ [])
    (hsegs : Segs segs) (hpfx : sep ∉ cfg.pfx)
    (hinitm : (segs.map (fun p => cfg.pfx ++ p)).getLast? ≠ some (pstr "__init__")) :
    FollowHierarchyLayout.get_source_candidates cfg cwd
        (cfg.test_root ++ [sep] ++ pyJoin [sep] (withPy (segs.map (fun p => cfg.pfx ++ p)))) =
      .ok [cfg.source_root ++ [sep] ++ pyJoin [sep] (withPy segs),
        cfg.source_root ++ [sep] ++ pyJoin [sep] segs ++ [sep] ++ pstr "__init__.py"] := by
  obtain ⟨hne, hseg⟩ := hsegs
  have hsegm : ∀ z ∈ segs.map (fun p => cfg.pfx ++ p), Seg z := by
    intro z hz
    rcases List.mem_map.mp hz with ⟨w, hw, rfl⟩
    exact seg_pre_append hpfx (hseg w hw)
  rcases List.eq_nil_or_concat segs with h0 | ⟨most, y, hconcat⟩
  · exact absurd h0 hne
  rw [List.concat_eq_append] at hconcat
  subst hconcat
  obtain ⟨hmost, hy⟩ := segs_concat_facts hseg
  rw [map_pre_concat] at hsegm hinitm ⊢
  obtain ⟨hwpne, hwp⟩ := withPy_segs hsegm
  have hyni : cfg.pfx ++ y ≠ pstr "__init__" := by
    intro h
    rw [List.getLast?_concat, h] at hinitm
    exact hinitm rfl
  have hmostm : ∀ z ∈ most.map (fun p => cfg.pfx ++ p), Seg z := by
    intro z hz
    exact hsegm z (List.mem_append.mpr (Or.inl hz))
  rw [FollowHierarchyLayout.get_source_candidates,
    if_neg (not_not_intro (by
      rw [List.append_assoc]
      exact isPrefixOf_append_self cfg.test_root _)),
    show _relpath cwd (cfg.test_root ++ [sep] ++
        pyJoin [sep] (withPy (most.map (fun p => cfg.pfx ++ p) ++ [cfg.pfx ++ y])))
        cfg.test_root =
      posix_relpath cwd (cfg.test_root ++ [sep] ++
        pyJoin [sep] (withPy (most.map (fun p => cfg.pfx ++ p) ++ [cfg.pfx ++ y])))
        cfg.test_root from rfl,
    posix_relpath_under hcwd htr hwpne hwp, except_bind_ok]
  dsimp only
  rw [break_down_module hmostm (seg_pre_append hpfx hy).2.2.2 hyni]
  have hmapmap : (most.map (fun p => cfg.pfx ++ p) ++ [cfg.pfx ++ y]).map
      (fun p => stripPre p cfg.pfx) = most ++ [y] := by
    rw [List.map_append, List.map_map]
    congr 1
    · have hcong : ∀ z ∈ most,
          ((fun p => stripPre p cfg.pfx) ∘ (fun p => cfg.pfx ++ p)) z = id z := by
        intro z hz
        exact stripPre_append cfg.pfx z
      rw [List.map_congr_left hcong, List.map_id]
    · show [stripPre (cfg.pfx ++ y) cfg.pfx] = [y]
      rw [stripPre_append]
  rw [hmapmap,
    show [cfg.source_root] ++ (most ++ [y]) = ([cfg.source_root] ++ most) ++ [y] from
      (List.append_assoc _ _ _).symm,
    glue_parts_false ([cfg.source_root] ++ most) y, glue_parts_true]
  dsimp only
  have e1 : pyJoin [sep] (([cfg.source_root] ++ most) ++ [y ++ pstr ".py"]) =
      cfg.source_root ++ [sep] ++ pyJoin [sep] (withPy (most ++ [y])) := by
    rw [withPy_concat, List.append_assoc]
    exact pyJoin_append [sep] [cfg.source_root] (most ++ [y ++ pstr ".py"]) (by simp) (by simp)
  have e2 : pyJoin [sep] ((([cfg.source_root] ++ most) ++ [y]) ++ [pstr "__init__.py"]) =
      cfg.source_root ++ [sep] ++ pyJoin [sep] (most ++ [y]) ++ [sep] ++ pstr "__init__.py" := by
    have hl : (([cfg.source_root] ++ most) ++ [y]) ++ [pstr "__init__.py"] =
        [cfg.source_root] ++ ((most ++ [y]) ++ [pstr "__init__.py"]) := by
      simp [List.append_assoc]
    rw [hl,
      pyJoin_append [sep] [cfg.source_root] ((most ++ [y]) ++ [pstr "__init__.py"])
        (by simp) (by simp),
      pyJoin_append [sep] (most ++ [y]) [pstr "__init__.py"] (by simp) (by simp)]
    simp only [List.append_assoc]
    rfl
  rw [e1, e2]

theorem sbs_fwd (cfg : Config) {most : List PStr} {y : PStr}
    (hmost : ∀ z ∈ most, Seg z) (hy : Seg y) (hyni : y ≠ pstr "__init__") :
    SideBySideLayout.get_test_file cfg (pyJoin [sep] (withPy (most ++ [y]))) =
      .ok (pyJoin [sep] (withPy (most ++ [cfg.pfx ++ y]))) := by
  rw [SideBySideLayout.get_test_file, break_down_module hmost hy.2.2.2 hyni,
    List.getLast?_concat]
  dsimp only
  rw [List.dropLast_concat, glue_parts_false most (cfg.pfx ++ y)]
  dsimp only
  rw [withPy_concat]

theorem sbs_rev (cfg : Config) {most : List PStr} {y : PStr}
    (hmost : ∀ z ∈ most, Seg z) (hy : Seg y) (hpfx : sep ∉ cfg.pfx)
    (hyni : cfg.pfx ++ y ≠ pstr "__init__") :
    SideBySideLayout.get_source_candidates cfg (pyJoin [sep] (withPy (most ++ [cfg.pfx ++ y]))) =
      .ok [pyJoin [sep] (withPy (most ++ [y]))] := by
  rw [SideBySideLayout.get_source_candidates,
    break_down_module hmost (seg_pre_append hpfx hy).2.2.2 hyni, List.getLast?_concat]
  dsimp only
  rw [if_neg (not_not_intro (isPrefixOf_append_self cfg.pfx y)), List.dropLast_concat,
    List.drop_left, glue_parts_false most y]
  dsimp only
  rw [withPy_concat]

theorem flat_rev_err (cfg : Config) (cwd : PStr) (segs : List PStr)
    (hcwd : isAbs cwd = true) (htr : cfg.test_root ≠ [])
    (hsegs : Segs segs) (hlast : segs.getLast? ≠ some (pstr "__init__"))
    (hlen : segs.length ≠ 1) :
    FlatLayout.get_source_candidates cfg cwd
        (cfg.test_root ++ [sep] ++ pyJoin [sep] (withPy segs)) =
      .error .invalidTestPath := by
  obtain ⟨hne, hseg⟩ := hsegs
  rcases List.eq_nil_or_concat segs with h0 | ⟨most, y, hconcat⟩
  · exact absurd h0 hne
  rw [List.concat_eq_append] at hconcat
  subst hconcat
  obtain ⟨hmost, hy⟩ := segs_concat_facts hseg
  obtain ⟨hwpne, hwp⟩ := withPy_segs hseg
  have hyni : y ≠ pstr "__init__" := by
    intro h
    rw [List.getLast?_concat, h] at hlast
    exact hlast rfl
  rw [FlatLayout.get_source_candidates,
    if_neg (not_not_intro (by
      rw [List.append_assoc]
      exact isPrefixOf_append_self cfg.test_root _)),
    show _relpath cwd (cfg.test_root ++ [sep] ++ pyJoin [sep] (withPy (most ++ [y])))
        cfg.test_root =
      posix_relpath cwd (cfg.test_root ++ [sep] ++ pyJoin [sep] (withPy (most ++ [y])))
        cfg.test_root from rfl,
    posix_relpath_under hcwd htr hwpne hwp, except_bind_ok]
  dsimp only
  rw [break_down_module hmost hy.2.2.2 hyni]
  cases most with
  | nil => exact absurd (by simp) hlen
  | cons m ms =>
    rw [List.cons_append]
    cases hms : ms ++ [y] with
    | nil => exact absurd hms (by simp)
    | cons b bs => rfl

/-! ## Lemmas about `find_project_root` -/

theorem is_fs_root_iff (cfg : Config) (env : Env) (q : PStr) :
    is_fs_root cfg env q = true ↔ BoundaryAt cfg env (canonComps env.cwd q) := by
  simp only [is_fs_root, is_home_dir, BoundaryAt, decide_eq_true_eq]
  rw [realpath_eq_root_iff]
  constructor
  · rintro (h | h)
    · exact Or.inl h
    · exact Or.inr ⟨h.1, by simpa [realpath] using h.2⟩
  · rintro (h | h)
    · exact Or.inl h
    · exact Or.inr ⟨h.1, by simpa [realpath] using h.2⟩

theorem pexists_pjoin_seg (env : Env) (q : PStr) {i : PStr} (hi : Seg i) :
    pexists env (pjoin q i) = true ↔
      ((canonComps env.cwd q ++ [i]) ∈ env.files ∨
        (canonComps env.cwd q ++ [i]) ∈ env.dirs) := by
  simp only [pexists, isfile, isdir, decide_eq_true_eq, Bool.decide_or, Bool.or_eq_true]
  rw [canonComps_pjoin_seg env.cwd q hi]

theorem indicators_any_false (cfg : Config) (env : Env) (q : PStr)
    (hInd : ∀ i ∈ cfg.indicators, Seg i)
    (hNo : NoIndAt cfg env (canonComps env.cwd q)) :
    cfg.indicators.any (fun i => pexists env (pjoin q i)) = false := by
  rw [List.any_eq_false]
  intro i hi hcontra
  rcases (pexists_pjoin_seg env q (hInd i hi)).mp hcontra with h | h
  · exact (hNo i hi).1 h
  · exact (hNo i hi).2 h

theorem indicators_any_true (cfg : Config) (env : Env) (q : PStr)
    (hInd : ∀ i ∈ cfg.indicators, Seg i)
    (hEx : ∃ i ∈ cfg.indicators,
      ((canonComps env.cwd q ++ [i]) ∈ env.files ∨
        (canonComps env.cwd q ++ [i]) ∈ env.dirs)) :
    cfg.indicators.any (fun i => pexists env (pjoin q i)) = true := by
  rcases hEx with ⟨i, hi, hex⟩
  exact List.any_eq_true.mpr ⟨i, hi, (pexists_pjoin_seg env q (hInd i hi)).mpr hex⟩

theorem isPrefixOf_dslash_pair (c1 c2 : Char) (t : PStr) :
    (pstr "//").isPrefixOf (c1 :: c2 :: t) = ((sep == c1) && (sep == c2)) := by
  show List.isPrefixOf [sep, sep] (c1 :: c2 :: t) = _
  simp [List.isPrefixOf]

theorem pjoin_pardir_absclean {q : PStr} (habs : isAbs q = true)
    (hfree : (pstr "//").isPrefixOf q = false) :
    isAbs (pjoin q (pstr "..")) = true ∧
      (pstr "//").isPrefixOf (pjoin q (pstr "..")) = false := by
  have hqne : q ≠ [] := by
    intro h
    rw [h, isAbs_nil] at habs
    exact absurd habs (by simp)
  have hj : pjoin q (pstr "..") = dirSlash q ++ pstr ".." := pjoin_nonabs q (by decide)
  refine ⟨by rw [hj, isAbs_dirSlash_append q _ hqne]; exact habs, ?_⟩
  rw [hj]
  cases q with
  | nil => exact absurd rfl hqne
  | cons c1 rest =>
    have hc1 : sep = c1 := by
      rw [isAbs_cons] at habs
      exact eq_of_beq habs
    cases rest with
    | nil =>
      have hd : dirSlash [c1] = [c1] := by
        rw [dirSlash, if_pos (Or.inr (by simp [← hc1]))]
      rw [hd]
      rw [show ([c1] ++ pstr ".." : PStr) = c1 :: '.' :: ['.'] from rfl,
        isPrefixOf_dslash_pair]
      simp [sep]
    | cons c2 rest2 =>
      have hc2 : (sep == c2) = false := by
        rw [isPrefixOf_dslash_pair] at hfree
        simpa [← hc1] using hfree
      rw [dirSlash]
      split
      · rw [show ((c1 :: c2 :: rest2) ++ pstr ".." : PStr) =
          c1 :: c2 :: (rest2 ++ pstr "..") from rfl, isPrefixOf_dslash_pair]
        simp [hc2]
      · rw [show (((c1 :: c2 :: rest2) ++ [sep]) ++ pstr ".." : PStr) =
          c1 :: c2 :: ((rest2 ++ [sep]) ++ pstr "..") from by simp, isPrefixOf_dslash_pair]
        simp [hc2]

theorem normpath_eq_mkAbs (cwd : PStr) {q : PStr} (habs : isAbs q = true)
    (hfree : (pstr "//").isPrefixOf q = false) :
    normpath q = mkAbs (canonComps cwd q) := by
  rw [normpath_abs_form habs,
    if_neg (fun h => by rw [hfree] at h; exact absurd h.1 (by simp)),
    canonComps_of_abs habs]
  rfl

theorem take_dropLast_of_le {α : Type} (l : List α) (k : Nat) (hk : k ≤ l.length - 1) :
    l.dropLast.take k = l.take k := by
  rw [List.dropLast_eq_take, List.take_take, Nat.min_eq_left hk]

theorem fpr_go_err (cfg : Config) (env : Env)
    (hInd : ∀ i ∈ cfg.indicators, Seg i) :
    ∀ (n : Nat) (q : PStr), (canonComps env.cwd q).length = n →
    (∀ k, k ≤ n → ¬ BoundaryAt cfg env ((canonComps env.cwd q).take k) →
      NoIndAt cfg env ((canonComps env.cwd q).take k)) →
    fpr_go cfg env (n + 1) q = .error .projectRootNotFound := by
  intro n
  induction n with
  | zero =>
    intro q hlen _
    have hcc : canonComps env.cwd q = [] := List.length_eq_zero.mp hlen
    rw [fpr_go, if_pos ((is_fs_root_iff cfg env q).mpr (Or.inl hcc))]
  | succ m ih =>
    intro q hlen hno
    have htk : (canonComps env.cwd q).take (m + 1) = canonComps env.cwd q := by
      rw [← hlen]
      exact List.take_length _
    rw [fpr_go]
    by_cases hroot : is_fs_root cfg env q = true
    · rw [if_pos hroot]
    · have hnb : ¬ BoundaryAt cfg env (canonComps env.cwd q) := by
        intro hb
        exact hroot ((is_fs_root_iff cfg env q).mpr hb)
      have hnoq : NoIndAt cfg env (canonComps env.cwd q) := by
        have h := hno (m + 1) (le_refl _) (by rw [htk]; exact hnb)
        rwa [htk] at h
      rw [if_neg hroot,
        if_neg (by rw [indicators_any_false cfg env q hInd hnoq]; simp)]
      apply ih
      · rw [canonComps_pjoin_pardir, List.length_dropLast, hlen]
        rfl
      · intro k hk hb
        rw [canonComps_pjoin_pardir] at hb ⊢
        rw [take_dropLast_of_le _ k (by rw [hlen]; simpa using hk)] at hb ⊢
        exact hno k (Nat.le_succ_of_le hk) hb

theorem fpr_go_ok (cfg : Config) (env : Env)
    (hInd : ∀ i ∈ cfg.indicators, Seg i) (j : Nat) :
    ∀ (n : Nat) (q : PStr), (canonComps env.cwd q).length = n → j ≤ n →
    isAbs q = true → (pstr "//").isPrefixOf q = false →
    (∀ k, k ≤ n → j < k → ¬ BoundaryAt cfg env ((canonComps env.cwd q).take k) ∧
      NoIndAt cfg env ((canonComps env.cwd q).take k)) →
    ¬ BoundaryAt cfg env ((canonComps env.cwd q).take j) →
    (∃ i ∈ cfg.indicators,
      (((canonComps env.cwd q).take j ++ [i]) ∈ env.files ∨
        ((canonComps env.cwd q).take j ++ [i]) ∈ env.dirs)) →
    fpr_go cfg env (n + 1) q = .ok (mkAbs ((canonComps env.cwd q).take j)) := by
  intro n
  induction n with
  | zero =>
    intro q hlen hj habs hfree hupper hnb hex
    refine absurd (Or.inl ?_) hnb
    rw [Nat.le_zero.mp hj]
    exact List.take_zero _
  | succ m ih =>
    intro q hlen hj habs hfree hupper hnb hex
    have htk : (canonComps env.cwd q).take (m + 1) = canonComps env.cwd q := by
      rw [← hlen]
      exact List.take_length _
    rw [fpr_go]
    by_cases hjm : j = m + 1
    · subst hjm
      rw [htk] at hnb hex
      rw [if_neg (fun hr => hnb ((is_fs_root_iff cfg env q).mp hr)),
        if_pos (indicators_any_true cfg env q hInd hex),
        normpath_eq_mkAbs env.cwd habs hfree, htk]
    · have hjlt : j < m + 1 := lt_of_le_of_ne hj hjm
      have hjm' : j ≤ m := Nat.lt_succ_iff.mp hjlt
      have hstep := hupper (m + 1) (le_refl _) hjlt
      rw [htk] at hstep
      have hclean := pjoin_pardir_absclean habs hfree
      have hcp : canonComps env.cwd (pjoin q (pstr "..")) =
          (canonComps env.cwd q).dropLast := canonComps_pjoin_pardir _ _
      have hdl : ∀ k, k ≤ m →
          ((canonComps env.cwd q).dropLast).take k = (canonComps env.cwd q).take k := by
        intro k hk
        exact take_dropLast_of_le _ k (by rw [hlen]; simpa using hk)
      rw [if_neg (fun hr => hstep.1 ((is_fs_root_iff cfg env q).mp hr)),
        if_neg (by rw [indicators_any_false cfg env q hInd hstep.2]; simp)]
      have hres := ih (pjoin q (pstr "..")) (by
          rw [hcp, List.length_dropLast, hlen]
          rfl)
        hjm' hclean.1 hclean.2
        (fun k hk hjk => by
          rw [hcp, hdl k hk]
          exact hupper k (Nat.le_succ_of_le hk) hjk)
        (by rw [hcp, hdl j hjm']; exact hnb)
        (by rw [hcp, hdl j hjm']; exact hex)
      rw [hres, hcp, hdl j hjm']

theorem find_project_root_of_isdir (cfg : Config) (env : Env) {p : PStr}
    (hdir : isdir env p = true) :
    find_project_root cfg env p =
      fpr_go cfg env ((canonComps env.cwd p).length + 1) p := by
  rw [find_project_root, find_project_root_go, if_pos hdir]

/-! ## Remaining helper lemmas -/

theorem segs_pyJoin_ne_nil {l : List PStr} (h : Segs l) : pyJoin [sep] l ≠ [] :=
  pyJoin_ne_nil h.1 (fun y hy => (h.2 y hy).1)

theorem posix_relpath_pjoin_child {cwd base child : PStr} (hcwd : isAbs cwd = true)
    (hchild : Seg child) :
    posix_relpath cwd (pjoin base child) base = .ok child := by
  have hne : pjoin base child ≠ [] := by
    rw [pjoin_nonabs base (not_isAbs_of_not_mem_sep hchild.2.2.2)]
    intro h
    exact hchild.1 (List.append_eq_nil.mp h).2
  unfold posix_relpath
  rw [if_neg hne]
  dsimp only
  rw [filter_split_abspath (absRaw_abs_of_cwd _ hcwd),
    filter_split_abspath (absRaw_abs_of_cwd _ hcwd),
    canonComps_pjoin_seg cwd base hchild,
    commonPrefixLen_append, Nat.sub_self, List.drop_left]
  rw [if_neg (by simp [hchild.1])]
  rfl

theorem mkAbs_append_rel (rSegs trSegs : List PStr) (hrne : rSegs ≠ [])
    (htrne : trSegs ≠ []) :
    mkAbs rSegs ++ [sep] ++ pyJoin [sep] trSegs = mkAbs (rSegs ++ trSegs) := by
  rw [mkAbs, mkAbs, pyJoin_append [sep] rSegs trSegs hrne htrne]
  simp [List.append_assoc]

theorem mkAbs_dslash_free {m : List PStr} (hm : ∀ y ∈ m, Seg y) :
    (pstr "//").isPrefixOf (mkAbs m) = false := by
  cases m with
  | nil => decide
  | cons y t =>
    have hy := hm y (List.mem_cons_self _ _)
    cases y with
    | nil => exact absurd rfl hy.1
    | cons c cs =>
      have hc : c ≠ sep := by
        intro h
        apply hy.2.2.2
        rw [← h]
        exact List.mem_cons_self c cs
      obtain ⟨rest, hrest⟩ : ∃ rest, pyJoin [sep] ((c :: cs) :: t) = c :: rest := by
        cases t with
        | nil => exact ⟨cs, rfl⟩
        | cons z zs =>
          refine ⟨cs ++ [sep] ++ pyJoin [sep] (z :: zs), ?_⟩
          rw [pyJoin_cons _ _ _ (by simp)]
          simp
      rw [mkAbs, hrest, isPrefixOf_dslash_pair]
      have hbeq : (sep == c) = false := by
        simp only [beq_eq_false_iff_ne, ne_eq]
        exact fun h => hc h.symm
      simp [hbeq]

theorem abspath_mkAbs (cwd : PStr) {m : List PStr} (hm : ∀ y ∈ m, Seg y) :
    abspath cwd (mkAbs m) = mkAbs m := by
  have habs : isAbs (mkAbs m) = true := by
    rw [mkAbs, isAbs_cons]
    simp
  rw [abspath, absRaw, if_pos habs, normpath_eq_mkAbs cwd habs (mkAbs_dslash_free hm),
    canonComps_mkAbs cwd hm]

theorem mkAbs_isPrefixOf_append (m e : List PStr) (hm : m ≠ []) :
    (mkAbs m).isPrefixOf (mkAbs (m ++ e)) = true := by
  apply List.isPrefixOf_iff_prefix.mpr
  cases e with
  | nil => simp
  | cons z zs =>
    rw [mkAbs, mkAbs, pyJoin_append [sep] m (z :: zs) hm (by simp)]
    refine ⟨[sep] ++ pyJoin [sep] (z :: zs), ?_⟩
    simp [List.append_assoc]

theorem slashgenerator_length (n : Nat) (sf lf : List PStr) :
    (slashgenerator n sf lf).length = sf.length ^ n * lf.length := by
  induction n with
  | zero => simp [slashgenerator]
  | succ m ih =>
    rw [slashgenerator, List.length_flatMap]
    have hmap : sf.map (List.length ∘ fun opt =>
        (slashgenerator m sf lf).map (fun x => opt :: x)) =
        sf.map (fun o => sf.length ^ m * lf.length) := by
      apply List.map_congr_left
      intro x hx
      simp [ih]
    rw [hmap, List.map_const', List.sum_replicate, smul_eq_mul, pow_succ]
    ring

/-! ## Claim theorems -/

/-- C10: On the input `"__init__.py"` (no directory component),
`break_down` returns the empty list, and `SideBySideLayout.is_test_file`
and `SideBySideLayout.get_test_file` then read the last element of that
empty list, so for every configuration both operations end in the
unguarded out-of-range access (`IndexError`) instead of a result or a
documented error. -/
theorem c10_init_input_crashes (cfg : Config) :
    break_down (pstr "__init__.py") = [] ∧
    SideBySideLayout.is_test_file cfg (pstr "__init__.py") = .error .indexError ∧
    SideBySideLayout.get_test_file cfg (pstr "__init__.py") = .error .indexError :=
  ⟨by decide, rfl, rfl⟩

/-- C7: The relative-path routine `_relpath` (1) maps equal nonempty paths
to `"."`, (2) maps `join(base, child)` relative to `base` to `child` for
any base path and any well-formed child segment (with an absolute working
directory, as `os.getcwd()` guarantees), and (3) terminates with a result
(never an error) on every nonempty path, in particular on any two absolute
paths. -/
theorem c7_relpath_contract (cwd X base child p s : PStr)
    (hX : X ≠ []) (hcwd : isAbs cwd = true) (hchild : Seg child) (hp : p ≠ []) :
    _relpath cwd X X = .ok (pstr ".") ∧
    _relpath cwd (pjoin base child) base = .ok child ∧
    ∃ r, _relpath cwd p s = .ok r :=
  ⟨posix_relpath_self cwd hX, posix_relpath_pjoin_child hcwd hchild,
    posix_relpath_isOk cwd s hp⟩

/-- Witness for C7 at concrete inputs. -/
theorem c7_relpath_contract_witness :
    _relpath (pstr "/w") (pstr "a/b") (pstr "a/b") = .ok (pstr ".") ∧
    _relpath (pstr "/w") (pjoin (pstr "/base") (pstr "kid")) (pstr "/base") =
      .ok (pstr "kid") ∧
    ∃ r, _relpath (pstr "/w") (pstr "/x/y") (pstr "/z") = .ok r :=
  c7_relpath_contract (pstr "/w") (pstr "a/b") (pstr "/base") (pstr "kid")
    (pstr "/x/y") (pstr "/z") (by decide) (by decide) (by decide) (by decide)

/-- C1 (counterexample): with the standard configuration, the source file
`src/my_mod.py` exists on the filesystem, lies under the source root, and
maps under the Flat layout to `tests/test_my_mod.py`, but reversing that
test file yields only `src/my/mod.py` and `src/my/mod/__init__.py` — a
candidate list that does not contain the original source: the round trip
fails as the claim states it. -/
theorem c1_round_trip_counterexample :
    isfile envC1 (pstr "src/my_mod.py") = true ∧
    layout_get_test_file .flat cfgStd (pstr "/") (pstr "src/my_mod.py") =
      .ok (pstr "tests/test_my_mod.py") ∧
    layout_get_source_candidates .flat cfgStd (pstr "/") (pstr "tests/test_my_mod.py") =
      .ok [pstr "src/my/mod.py", pstr "src/my/mod/__init__.py"] ∧
    pstr "src/my_mod.py" ∉ [pstr "src/my/mod.py", pstr "src/my/mod/__init__.py"] :=
  ⟨by decide, by decide, by decide, by decide⟩

/-- C1 (amended): for every layout variant and every source path of the
form `sourceRoot/<segs>.py` that exists on the filesystem, where the
relative segments are well-formed and contain no underscore, applying the
layout's `get_test_file` and then its `get_source_candidates` on the
result yields a candidate list that contains the original source path.
(The underscore restriction is forced by the Flat layout's underscore
splitting; package `__init__.py` sources are outside this family — the
SideBySide layout would also drop them.) -/
theorem c1_round_trip_amended (L : LayoutKind) (cfg : Config) (env : Env)
    (cwd : PStr) (srSegs segs : List PStr)
    (hcwd : isAbs cwd = true)
    (hsr : cfg.source_root = pyJoin [sep] srSegs) (hsrS : Segs srSegs)
    (htr : cfg.test_root ≠ []) (hpfx : sep ∉ cfg.pfx)
    (hsegs : Segs segs) (hU : ∀ z ∈ segs, '_' ∉ z)
    (hfile : isfile env (cfg.source_root ++ [sep] ++ pyJoin [sep] (withPy segs)) = true) :
    ∃ T cands,
      layout_get_test_file L cfg cwd
        (cfg.source_root ++ [sep] ++ pyJoin [sep] (withPy segs)) = .ok T ∧
      layout_get_source_candidates L cfg cwd T = .ok cands ∧
      (cfg.source_root ++ [sep] ++ pyJoin [sep] (withPy segs)) ∈ cands := by
  have hsrne : cfg.source_root ≠ [] := by
    rw [hsr]
    exact segs_pyJoin_ne_nil hsrS
  have hlast : segs.getLast? ≠ some (pstr "__init__") := by
    intro h
    have hmem := List.mem_of_mem_getLast? h
    exact hU _ hmem (by decide)
  cases L with
  | flat =>
    refine ⟨_, _, flat_fwd cfg cwd segs hcwd hsrne hsegs hlast,
      flat_rev cfg cwd segs hcwd htr hsegs hpfx hU, List.mem_cons_self _ _⟩
  | followHierarchy =>
    have hinitm : (segs.map (fun p => cfg.pfx ++ p)).getLast? ≠ some (pstr "__init__") := by
      obtain ⟨hne, hseg⟩ := hsegs
      rcases List.eq_nil_or_concat segs with h0 | ⟨most, y, hconcat⟩
      · exact absurd h0 hne
      rw [List.concat_eq_append] at hconcat
      subst hconcat
      rw [map_pre_concat, List.getLast?_concat]
      intro h
      obtain ⟨hmost, hy⟩ := segs_concat_facts hseg
      rcases List.eq_nil_or_concat y with hy0 | ⟨y', c, hyconcat⟩
      · exact absurd hy0 hy.1
      rw [List.concat_eq_append] at hyconcat
      have hylast : y.getLast? = some c := by rw [hyconcat, List.getLast?_concat]
      have hcny : c ∈ y := by
        rw [hyconcat]
        exact List.mem_append.mpr (Or.inr (List.mem_singleton.mpr rfl))
      have hcU : c ≠ '_' := fun hcc =>
        hU y (List.mem_append.mpr (Or.inr (List.mem_singleton.mpr rfl))) (hcc ▸ hcny)
      exact pfx_join_ne_init hylast hcU (Option.some_inj.mp h)
    refine ⟨_, _, fh_fwd cfg cwd segs hcwd hsrne hsegs hlast,
      fh_rev cfg cwd segs hcwd htr hsegs hpfx hinitm, List.mem_cons_self _ _⟩
  | sideBySide =>
    obtain ⟨hne, hseg⟩ := hsegs
    rcases List.eq_nil_or_concat segs with h0 | ⟨most, y, hconcat⟩
    · exact absurd h0 hne
    rw [List.concat_eq_append] at hconcat
    subst hconcat
    obtain ⟨hmost, hy⟩ := segs_concat_facts hseg
    have hylast : y ≠ pstr "__init__" := by
      intro h
      exact hU y (List.mem_append.mpr (Or.inr (List.mem_singleton.mpr rfl)))
        (h ▸ (by decide : '_' ∈ pstr "__init__"))
    have hpy : cfg.pfx ++ y ≠ pstr "__init__" := by
      rcases List.eq_nil_or_concat y with hy0 | ⟨y', c, hyconcat⟩
      · exact absurd hy0 hy.1
      rw [List.concat_eq_append] at hyconcat
      have hylast' : y.getLast? = some c := by rw [hyconcat, List.getLast?_concat]
      have hcny : c ∈ y := by
        rw [hyconcat]
        exact List.mem_append.mpr (Or.inr (List.mem_singleton.mpr rfl))
      have hcU : c ≠ '_' := fun hcc =>
        hU y (List.mem_append.mpr (Or.inr (List.mem_singleton.mpr rfl))) (hcc ▸ hcny)
      exact pfx_join_ne_init hylast' hcU
    have hS : cfg.source_root ++ [sep] ++ pyJoin [sep] (withPy (most ++ [y])) =
        pyJoin [sep] (withPy ((srSegs ++ most) ++ [y])) := by
      rw [show (srSegs ++ most) ++ [y] = srSegs ++ (most ++ [y]) from List.append_assoc _ _ _,
        withPy_append srSegs (most ++ [y]) (by simp),
        pyJoin_append [sep] srSegs (withPy (most ++ [y])) hsrS.1 (withPy_segs hseg).1,
        hsr]
    have hallpre : ∀ z ∈ srSegs ++ most, Seg z := by
      intro z hz
      rcases List.mem_append.mp hz with h1 | h1
      · exact hsrS.2 z h1
      · exact hmost z h1
    refine ⟨pyJoin [sep] (withPy ((srSegs ++ most) ++ [cfg.pfx ++ y])),
      [pyJoin [sep] (withPy ((srSegs ++ most) ++ [y]))], ?_, ?_, ?_⟩
    · show SideBySideLayout.get_test_file cfg
        (cfg.source_root ++ [sep] ++ pyJoin [sep] (withPy (most ++ [y]))) = _
      rw [hS]
      exact @sbs_fwd cfg (srSegs ++ most) _ hallpre hy hylast
    · exact @sbs_rev cfg (srSegs ++ most) _ hallpre hy hpfx hpy
    · rw [hS]
      exact List.mem_singleton.mpr rfl

/-- Witness for the amended C1 at the concrete source `src/pkg/mod.py`
(which exists in `envC1`), for each of the three layouts. -/
theorem c1_round_trip_amended_witness :
    (∃ T cands,
      layout_get_test_file .flat cfgStd (pstr "/")
        (cfgStd.source_root ++ [sep] ++
          pyJoin [sep] (withPy [pstr "pkg", pstr "mod"])) = .ok T ∧
      layout_get_source_candidates .flat cfgStd (pstr "/") T = .ok cands ∧
      (cfgStd.source_root ++ [sep] ++
        pyJoin [sep] (withPy [pstr "pkg", pstr "mod"])) ∈ cands) ∧
    (∃ T cands,
      layout_get_test_file .followHierarchy cfgStd (pstr "/")
        (cfgStd.source_root ++ [sep] ++
          pyJoin [sep] (withPy [pstr "pkg", pstr "mod"])) = .ok T ∧
      layout_get_source_candidates .followHierarchy cfgStd (pstr "/") T = .ok cands ∧
      (cfgStd.source_root ++ [sep] ++
        pyJoin [sep] (withPy [pstr "pkg", pstr "mod"])) ∈ cands) ∧
    (∃ T cands,
      layout_get_test_file .sideBySide cfgStd (pstr "/")
        (cfgStd.source_root ++ [sep] ++
          pyJoin [sep] (withPy [pstr "pkg", pstr "mod"])) = .ok T ∧
      layout_get_source_candidates .sideBySide cfgStd (pstr "/") T = .ok cands ∧
      (cfgStd.source_root ++ [sep] ++
        pyJoin [sep] (withPy [pstr "pkg", pstr "mod"])) ∈ cands) :=
  ⟨c1_round_trip_amended .flat cfgStd envC1 (pstr "/") [pstr "src"] [pstr "pkg", pstr "mod"]
      (by decide) (by decide) (by decide) (by decide) (by decide) (by decide)
      (by decide) (by decide),
    c1_round_trip_amended .followHierarchy cfgStd envC1 (pstr "/") [pstr "src"]
      [pstr "pkg", pstr "mod"] (by decide) (by decide) (by decide) (by decide) (by decide)
      (by decide) (by decide) (by decide),
    c1_round_trip_amended .sideBySide cfgStd envC1 (pstr "/") [pstr "src"]
      [pstr "pkg", pstr "mod"] (by decide) (by decide) (by decide) (by decide) (by decide)
      (by decide) (by decide) (by decide)⟩

/-- C4: In the FollowHierarchy layout, for a source path `a/b/c.py`
relative to the source root, `get_test_file` yields
`testRoot/<prefix>a/<prefix>b/<prefix>c.py`, and `get_source_candidates`
applied to that test path yields exactly the two candidates `a/b/c.py` and
`a/b/c/__init__.py` joined under the source root, in that order. -/
theorem c4_follow_hierarchy_pair (cfg : Config) (cwd a b c : PStr)
    (hcwd : isAbs cwd = true) (hsr : cfg.source_root ≠ []) (htr : cfg.test_root ≠ [])
    (hpfx : sep ∉ cfg.pfx) (ha : Seg a) (hb : Seg b) (hc : Seg c)
    (hcini : c ≠ pstr "__init__") (hinit : cfg.pfx ++ c ≠ pstr "__init__") :
    FollowHierarchyLayout.get_test_file cfg cwd
        (cfg.source_root ++ [sep] ++ pyJoin [sep] (withPy [a, b, c])) =
      .ok (cfg.test_root ++ [sep] ++
        pyJoin [sep] (withPy [cfg.pfx ++ a, cfg.pfx ++ b, cfg.pfx ++ c])) ∧
    FollowHierarchyLayout.get_source_candidates cfg cwd
        (cfg.test_root ++ [sep] ++
          pyJoin [sep] (withPy [cfg.pfx ++ a, cfg.pfx ++ b, cfg.pfx ++ c])) =
      .ok [cfg.source_root ++ [sep] ++ pyJoin [sep] (withPy [a, b, c]),
        cfg.source_root ++ [sep] ++ pyJoin [sep] [a, b, c] ++ [sep] ++ pstr "__init__.py"] := by
  have hSegs : Segs [a, b, c] := by
    refine ⟨by simp, ?_⟩
    intro z hz
    rcases List.mem_cons.mp hz with rfl | hz
    · exact ha
    rcases List.mem_cons.mp hz with rfl | hz
    · exact hb
    rcases List.mem_cons.mp hz with rfl | hz
    · exact hc
    simp at hz
  have hlast : ([a, b, c] : List PStr).getLast? ≠ some (pstr "__init__") := by
    intro h
    exact hcini (Option.some_inj.mp h)
  have hinitm : (([a, b, c] : List PStr).map (fun p => cfg.pfx ++ p)).getLast? ≠
      some (pstr "__init__") := by
    intro h
    exact hinit (Option.some_inj.mp h)
  exact ⟨fh_fwd cfg cwd [a, b, c] hcwd hsr hSegs hlast,
    fh_rev cfg cwd [a, b, c] hcwd htr hSegs hpfx hinitm⟩

/-- Witness for C4 at concrete segments. -/
theorem c4_follow_hierarchy_pair_witness :
    FollowHierarchyLayout.get_test_file cfgStd (pstr "/")
        (cfgStd.source_root ++ [sep] ++ pyJoin [sep] (withPy [pstr "a", pstr "b", pstr "c"])) =
      .ok (cfgStd.test_root ++ [sep] ++
        pyJoin [sep] (withPy [cfgStd.pfx ++ pstr "a", cfgStd.pfx ++ pstr "b",
          cfgStd.pfx ++ pstr "c"])) ∧
    FollowHierarchyLayout.get_source_candidates cfgStd (pstr "/")
        (cfgStd.test_root ++ [sep] ++
          pyJoin [sep] (withPy [cfgStd.pfx ++ pstr "a", cfgStd.pfx ++ pstr "b",
            cfgStd.pfx ++ pstr "c"])) =
      .ok [cfgStd.source_root ++ [sep] ++ pyJoin [sep] (withPy [pstr "a", pstr "b", pstr "c"]),
        cfgStd.source_root ++ [sep] ++ pyJoin [sep] [pstr "a", pstr "b", pstr "c"] ++
          [sep] ++ pstr "__init__.py"] :=
  c4_follow_hierarchy_pair cfgStd (pstr "/") (pstr "a") (pstr "b") (pstr "c")
    (by decide) (by decide) (by decide) (by decide) (by decide) (by decide) (by decide)
    (by decide) (by decide)

/-- C5: In the Flat layout, for a source path `a/b/c.py` under the source
root (segments underscore-free), `get_test_file` yields
`testRoot/<prefix>a_b_c.py`, and `get_source_candidates` on that test path
includes both `a/b/c.py` and `a/b/c/__init__.py` joined under the source
root among its candidates. -/
theorem c5_flat_pair (cfg : Config) (cwd a b c : PStr)
    (hcwd : isAbs cwd = true) (hsr : cfg.source_root ≠ []) (htr : cfg.test_root ≠ [])
    (hpfx : sep ∉ cfg.pfx) (ha : Seg a) (hb : Seg b) (hc : Seg c)
    (hua : '_' ∉ a) (hub : '_' ∉ b) (huc : '_' ∉ c) :
    FlatLayout.get_test_file cfg cwd
        (cfg.source_root ++ [sep] ++ pyJoin [sep] (withPy [a, b, c])) =
      .ok (cfg.test_root ++ [sep] ++
        (cfg.pfx ++ pyJoin (pstr "_") [a, b, c] ++ pstr ".py")) ∧
    ∃ cands,
      FlatLayout.get_source_candidates cfg cwd
        (cfg.test_root ++ [sep] ++
          (cfg.pfx ++ pyJoin (pstr "_") [a, b, c] ++ pstr ".py")) = .ok cands ∧
      (cfg.source_root ++ [sep] ++ pyJoin [sep] (withPy [a, b, c])) ∈ cands ∧
      (cfg.source_root ++ [sep] ++ pyJoin [sep] [a, b, c] ++ [sep] ++ pstr "__init__.py") ∈ cands := by
  have hSegs : Segs [a, b, c] := by
    refine ⟨by simp, ?_⟩
    intro z hz
    rcases List.mem_cons.mp hz with rfl | hz
    · exact ha
    rcases List.mem_cons.mp hz with rfl | hz
    · exact hb
    rcases List.mem_cons.mp hz with rfl | hz
    · exact hc
    simp at hz
  have hU : ∀ z ∈ ([a, b, c] : List PStr), '_' ∉ z := by
    intro z hz
    rcases List.mem_cons.mp hz with rfl | hz
    · exact hua
    rcases List.mem_cons.mp hz with rfl | hz
    · exact hub
    rcases List.mem_cons.mp hz with rfl | hz
    · exact huc
    simp at hz
  have hlast : ([a, b, c] : List PStr).getLast? ≠ some (pstr "__init__") := by
    have hg : ([a, b, c] : List PStr).getLast? = some c := rfl
    rw [hg]
    intro h
    apply huc
    rw [Option.some_inj.mp h]
    decide
  refine ⟨flat_fwd cfg cwd [a, b, c] hcwd hsr hSegs hlast, _, flat_rev cfg cwd [a, b, c]
    hcwd htr hSegs hpfx hU, List.mem_cons_self _ _, ?_⟩
  exact List.mem_cons_of_mem _ (List.mem_singleton.mpr rfl)

/-- Witness for C5 at concrete segments. -/
theorem c5_flat_pair_witness :
    FlatLayout.get_test_file cfgStd (pstr "/")
        (cfgStd.source_root ++ [sep] ++ pyJoin [sep] (withPy [pstr "a", pstr "b", pstr "c"])) =
      .ok (cfgStd.test_root ++ [sep] ++
        (cfgStd.pfx ++ pyJoin (pstr "_") [pstr "a", pstr "b", pstr "c"] ++ pstr ".py")) ∧
    ∃ cands,
      FlatLayout.get_source_candidates cfgStd (pstr "/")
        (cfgStd.test_root ++ [sep] ++
          (cfgStd.pfx ++ pyJoin (pstr "_") [pstr "a", pstr "b", pstr "c"] ++ pstr ".py")) =
        .ok cands ∧
      (cfgStd.source_root ++ [sep] ++
        pyJoin [sep] (withPy [pstr "a", pstr "b", pstr "c"])) ∈ cands ∧
      (cfgStd.source_root ++ [sep] ++ pyJoin [sep] [pstr "a", pstr "b", pstr "c"] ++
        [sep] ++ pstr "__init__.py") ∈ cands :=
  c5_flat_pair cfgStd (pstr "/") (pstr "a") (pstr "b") (pstr "c")
    (by decide) (by decide) (by decide) (by decide) (by decide) (by decide) (by decide)
    (by decide) (by decide) (by decide)

/-- C6: In the Flat layout, `get_source_candidates` fails with
`InvalidTestPath` whenever the test-root-relative module path breaks down
into a number of components different from one, and on a depth-one test
file `<name>.py` it returns exactly two candidates: the plain-module and
the package-init interpretations (as produced by `glue_parts`) of the
underscore-split, prefix-stripped name joined under the source root. -/
theorem c6_flat_depth (cfg : Config) (cwd : PStr) (segs : List PStr) (s : PStr)
    (hcwd : isAbs cwd = true) (htr : cfg.test_root ≠ [])
    (hsegs : Segs segs) (hlast : segs.getLast? ≠ some (pstr "__init__"))
    (hs : Seg s) (hsini : s ≠ pstr "__init__") :
    (segs.length ≠ 1 →
      FlatLayout.get_source_candidates cfg cwd
          (cfg.test_root ++ [sep] ++ pyJoin [sep] (withPy segs)) =
        .error .invalidTestPath) ∧
    (∃ g1 g2,
      FlatLayout.get_source_candidates cfg cwd
          (cfg.test_root ++ [sep] ++ (s ++ pstr ".py")) = .ok [g1, g2] ∧
      glue_parts ([cfg.source_root] ++ splitOnChar '_' (stripPre s cfg.pfx)) false = some g1 ∧
      glue_parts ([cfg.source_root] ++ splitOnChar '_' (stripPre s cfg.pfx)) true = some g2) := by
  constructor
  · intro hlen
    exact flat_rev_err cfg cwd segs hcwd htr hsegs hlast hlen
  · rw [FlatLayout.get_source_candidates,
      if_neg (not_not_intro (by
        rw [List.append_assoc]
        exact isPrefixOf_append_self cfg.test_root _)),
      show _relpath cwd (cfg.test_root ++ [sep] ++ (s ++ pstr ".py")) cfg.test_root =
        posix_relpath cwd (cfg.test_root ++ [sep] ++ (s ++ pstr ".py")) cfg.test_root from rfl,
      posix_relpath_under_one hcwd htr (seg_append_py hs.2.2.2), except_bind_ok]
    have hbd : break_down (s ++ pstr ".py") = [s] :=
      @break_down_module [] _ (by simp) hs.2.2.2 hsini
    rw [hbd]
    dsimp only
    rcases List.eq_nil_or_concat (splitOnChar '_' (stripPre s cfg.pfx)) with h0 | ⟨most', y', hc⟩
    · exact absurd h0 (splitOnChar_ne_nil _ _)
    rw [List.concat_eq_append] at hc
    rw [hc,
      show [cfg.source_root] ++ (most' ++ [y']) = ([cfg.source_root] ++ most') ++ [y'] from
        (List.append_assoc _ _ _).symm,
      glue_parts_false ([cfg.source_root] ++ most') y', glue_parts_true]
    exact ⟨_, _, rfl, rfl, rfl⟩

/-- Witness for C6: a two-component path is rejected, and
`tests/test_pkg_mod.py` yields exactly the two glue interpretations. -/
theorem c6_flat_depth_witness :
    (FlatLayout.get_source_candidates cfgStd (pstr "/")
        (cfgStd.test_root ++ [sep] ++ pyJoin [sep] (withPy [pstr "a", pstr "b"])) =
      .error .invalidTestPath) ∧
    (∃ g1 g2,
      FlatLayout.get_source_candidates cfgStd (pstr "/")
          (cfgStd.test_root ++ [sep] ++ (pstr "test_pkg_mod" ++ pstr ".py")) = .ok [g1, g2] ∧
      glue_parts ([cfgStd.source_root] ++
        splitOnChar '_' (stripPre (pstr "test_pkg_mod") cfgStd.pfx)) false = some g1 ∧
      glue_parts ([cfgStd.source_root] ++
        splitOnChar '_' (stripPre (pstr "test_pkg_mod") cfgStd.pfx)) true = some g2) := by
  have h := c6_flat_depth cfgStd (pstr "/") [pstr "a", pstr "b"] (pstr "test_pkg_mod")
    (by decide) (by decide) (by decide) (by decide) (by decide) (by decide)
  exact ⟨h.1 (by decide), h.2⟩

/-- C2: The flat branch of `find_source_file_for_test_file` enumerates
`|select_from|^(n-1) * |select_last_from|` interlacings — with the two
intermediate separators `/` and `_` and the two final forms that is
`2^(n-1) * 2` candidates for an `n`-part stem; for
`tests/test_pkg_mod.py` the ordered candidate list is exactly
`src/pkg/mod.py`, `src/pkg/mod/__init__.py`, `src/pkg_mod.py`,
`src/pkg_mod/__init__.py` (under the project's source root); the first
existing candidate wins (here `pkg/mod/__init__.py` beats the also
existing `pkg_mod.py`); and the search fails with `SourceFileNotFound`
when no candidate exists. -/
theorem c2_flat_resolution :
    (∀ (n : Nat) (sf lf : List PStr),
      (slashgenerator n sf lf).length = sf.length ^ n * lf.length) ∧
    flat_guesses (pstr "/proj/src") (pstr "pkg_mod.py") =
      [pstr "/proj/src/pkg/mod.py", pstr "/proj/src/pkg/mod/__init__.py",
        pstr "/proj/src/pkg_mod.py", pstr "/proj/src/pkg_mod/__init__.py"] ∧
    find_source_file_for_test_file cfgStd envC2a (pstr "/proj/tests/test_pkg_mod.py") =
      .ok (pstr "/proj/src/pkg/mod/__init__.py") ∧
    find_source_file_for_test_file cfgStd envC2b (pstr "/proj/tests/test_pkg_mod.py") =
      .error .sourceFileNotFound :=
  ⟨slashgenerator_length, by decide, by decide, by decide⟩

/-- C3 (counterexample): with the project at `/proj` and test root
`tests`, the path `/proj/testsuite/x.py` does not lie under the resolved
test root `/proj/tests`, yet `is_test_file` returns `true` for it, because
the classification is a string-prefix comparison of absolute paths. -/
theorem c3_is_test_file_counterexample :
    get_tests_root cfgStd envC3 (pstr "/proj/testsuite/x.py") = .ok (pstr "/proj/tests") ∧
    liesUnderB envC3.cwd (pstr "/proj/testsuite/x.py") (pstr "/proj/tests") = false ∧
    is_test_file cfgStd envC3 (pstr "/proj/testsuite/x.py") = .ok true :=
  ⟨by decide, by decide, by decide⟩

/-- C3 (amended): `is_test_file` returns `true` for every path that lies
under the absolute resolved test root (project root found, test root
appended), independently of the active layout strategy — but the converse
direction of the claim fails, since the comparison is a plain string
prefix test on absolute paths. -/
theorem c3_is_test_file_amended (cfg : Config) (env : Env) (P : PStr)
    (rSegs trSegs ext : List PStr)
    (hr : ∀ y ∈ rSegs, Seg y) (hrne : rSegs ≠ [])
    (htr : cfg.test_root = pyJoin [sep] trSegs) (htrS : Segs trSegs)
    (hext : ∀ y ∈ ext, Seg y)
    (hfpr : find_project_root cfg env P = .ok (mkAbs rSegs))
    (hP : P = mkAbs (rSegs ++ trSegs ++ ext)) :
    is_test_file cfg env P = .ok true := by
  rw [is_test_file, get_tests_root, hfpr, except_bind_ok, except_bind_ok]
  have hroot : mkAbs rSegs ++ [sep] ++ cfg.test_root = mkAbs (rSegs ++ trSegs) := by
    rw [htr]
    exact mkAbs_append_rel rSegs trSegs hrne htrS.1
  have hrt : ∀ y ∈ rSegs ++ trSegs, Seg y := by
    intro y hy
    rcases List.mem_append.mp hy with h1 | h1
    · exact hr y h1
    · exact htrS.2 y h1
  have hall : ∀ y ∈ (rSegs ++ trSegs) ++ ext, Seg y := by
    intro y hy
    rcases List.mem_append.mp hy with h1 | h1
    · exact hrt y h1
    · exact hext y h1
  rw [hroot, abspath_mkAbs env.cwd hrt, hP,
    show mkAbs (rSegs ++ trSegs ++ ext) = mkAbs ((rSegs ++ trSegs) ++ ext) from rfl,
    abspath_mkAbs env.cwd hall]
  dsimp only
  rw [mkAbs_isPrefixOf_append (rSegs ++ trSegs) ext (by simp [hrne])]

/-- Witness for the amended C3: `/proj/tests/x.py` lies under the
resolved test root and is classified as a test file. -/
theorem c3_is_test_file_amended_witness :
    is_test_file cfgStd envC3 (mkAbs ([pstr "proj"] ++ [pstr "tests"] ++ [pstr "x.py"])) =
      .ok true :=
  c3_is_test_file_amended cfgStd envC3 _ [pstr "proj"] [pstr "tests"] [pstr "x.py"]
    (by decide) (by decide) (by decide) (by decide) (by decide) (by decide) rfl

/-- C8: Starting from a directory `/l₁/…/lₙ`, `find_project_root` fails
with `ProjectRootNotFound` when the upward walk reaches a stop boundary
(the filesystem root, or the home directory when the stop-at-home flag is
set) with no non-boundary directory along the way containing a configured
indicator; and when a non-boundary ancestor does contain an indicator
(none between it and the start), that first (nearest) ancestor is
returned in normalized form. -/
theorem c8_find_project_root (cfg : Config) (env : Env) (l : List PStr)
    (hInd : ∀ i ∈ cfg.indicators, Seg i)
    (hl : ∀ y ∈ l, Seg y)
    (hdir : isdir env (mkAbs l) = true) :
    ((∀ k, k ≤ l.length → ¬ BoundaryAt cfg env (l.take k) → NoIndAt cfg env (l.take k)) →
      find_project_root cfg env (mkAbs l) = .error .projectRootNotFound) ∧
    (∀ m, m ≤ l.length →
      ¬ BoundaryAt cfg env (l.take m) →
      (∃ i ∈ cfg.indicators,
        ((l.take m ++ [i]) ∈ env.files ∨ (l.take m ++ [i]) ∈ env.dirs)) →
      (∀ k, m < k → k ≤ l.length →
        ¬ BoundaryAt cfg env (l.take k) ∧ NoIndAt cfg env (l.take k)) →
      find_project_root cfg env (mkAbs l) = .ok (mkAbs (l.take m))) := by
  have hcc : canonComps env.cwd (mkAbs l) = l := canonComps_mkAbs env.cwd hl
  constructor
  · intro hno
    rw [find_project_root_of_isdir cfg env hdir, hcc]
    apply fpr_go_err cfg env hInd l.length (mkAbs l) (by rw [hcc])
    intro k hk hnbk
    rw [hcc]
    rw [hcc] at hnbk
    exact hno k hk hnbk
  · intro m hml hnbm hex hup
    rw [find_project_root_of_isdir cfg env hdir, hcc]
    have h := fpr_go_ok cfg env hInd m l.length (mkAbs l) (by rw [hcc])
      hml
      (by rw [mkAbs, isAbs_cons]; simp)
      (mkAbs_dslash_free hl)
      (by
        intro k hk hjk
        rw [hcc]
        exact hup k hjk hk)
      (by rw [hcc]; exact hnbm)
      (by rw [hcc]; exact hex)
    rw [hcc] at h
    exact h

/-- Witness for C8: with no indicator anywhere the search from `/a/b`
fails; with the indicator at `/a` the search from `/a/b` returns `/a`. -/
theorem c8_find_project_root_witness :
    find_project_root cfgStd envC8a (mkAbs [pstr "a", pstr "b"]) =
      .error .projectRootNotFound ∧
    find_project_root cfgStd envC8b (mkAbs [pstr "a", pstr "b"]) =
      .ok (mkAbs (([pstr "a", pstr "b"] : List PStr).take 1)) :=
  ⟨(c8_find_project_root cfgStd envC8a [pstr "a", pstr "b"] (by decide)
      (by decide) (by decide)).1 (by
        intro k hk
        have h2 : ([pstr "a", pstr "b"] : List PStr).length = 2 := rfl
        rw [h2] at hk
        have hcases : k = 0 ∨ k = 1 ∨ k = 2 := by omega
        rcases hcases with rfl | rfl | rfl <;> decide),
    (c8_find_project_root cfgStd envC8b [pstr "a", pstr "b"] (by decide)
      (by decide) (by decide)).2 1 (by decide) (by decide) (by decide) (by
        intro k hk1 hk2
        have h2 : ([pstr "a", pstr "b"] : List PStr).length = 2 := rfl
        rw [h2] at hk2
        have hcases : k = 2 := by omega
        subst hcases
        decide)⟩

/-- C9: Because the stop condition is evaluated before the indicator
check, an indicator that is present only in stop-boundary directories
(the filesystem root, or the home directory when the stop-at-home flag is
set) is never detected: whenever every non-boundary directory along the
walk is indicator-free, the search fails with `ProjectRootNotFound`, even
though a configured indicator exists at the boundary (at `/`, or at the
home directory with the flag set). -/
theorem c9_boundary_indicator_invisible (cfg : Config) (env : Env) (l : List PStr)
    (hInd : ∀ i ∈ cfg.indicators, Seg i) (hl : ∀ y ∈ l, Seg y)
    (hdir : isdir env (mkAbs l) = true)
    (hbound : ∀ k, k ≤ l.length →
      BoundaryAt cfg env (l.take k) ∨ NoIndAt cfg env (l.take k))
    (hexists : ∃ i ∈ cfg.indicators, ∃ t : List PStr,
      BoundaryAt cfg env t ∧ ((t ++ [i]) ∈ env.files ∨ (t ++ [i]) ∈ env.dirs)) :
    find_project_root cfg env (mkAbs l) = .error .projectRootNotFound := by
  have hcc : canonComps env.cwd (mkAbs l) = l := canonComps_mkAbs env.cwd hl
  rw [find_project_root_of_isdir cfg env hdir, hcc]
  apply fpr_go_err cfg env hInd l.length (mkAbs l) (by rw [hcc])
  intro k hk hnbk
  rw [hcc]
  rw [hcc] at hnbk
  rcases hbound k hk with h | h
  · exact absurd h hnbk
  · exact h

/-- Witness for C9: the indicator `setup.py` exists only at `/`, and the
search from the directory `/a/b` still fails. -/
theorem c9_boundary_indicator_invisible_witness :
    find_project_root cfgStd envC9 (mkAbs [pstr "a", pstr "b"]) =
      .error .projectRootNotFound :=
  c9_boundary_indicator_invisible cfgStd envC9 [pstr "a", pstr "b"] (by decide) (by decide)
    (by decide) (by
      intro k hk
      have h2 : ([pstr "a", pstr "b"] : List PStr).length = 2 := rfl
      rw [h2] at hk
      have hcases : k = 0 ∨ k = 1 ∨ k = 2 := by omega
      rcases hcases with rfl | rfl | rfl <;> decide)
    ⟨pstr "setup.py", by decide, [], by decide, by decide⟩

end PyUnit
